import Mathlib

/-!
Verification development for the time-series reconciliation script
lire_donnees_excel.py.

The embedding models:
* Python dicts as association lists with first-match lookup and
  insert-or-overwrite assignment (dget / dset);
* pandas DataFrames as a record DF of a row index (timestamps, Nat),
  a column list and a finite cell map (missing cells = absent entries,
  modelling NaN);
* pandas Index.union as a sorted deduplicated union;
* DataFrame.reindex as row filtering / extension with missing cells;
* DataFrame.update as the cell-wise "non-missing cells of the argument
  overwrite" merge, restricted to the receiver's index and columns;
* the functions get_params, _extraire_col_params (here
  extraire_col_params), lire_fichiers_excel and aggreger_donnees of the
  source, with Excel reading (an external collaborator) abstracted as a
  function from file name to the per-station data it yields.
-/

/-- Python dict lookup on an association list: first matching key wins. -/
def dget {α β : Type} [DecidableEq α] : List (α × β) → α → Option β
  | [], _ => none
  | (k, v) :: t, a => if k = a then some v else dget t a

/-- Python dict assignment d[k] = v: overwrite in place if the key exists
(keeping its position), otherwise append at the end. -/
def dset {α β : Type} [DecidableEq α] : List (α × β) → α → β → List (α × β)
  | [], k, v => [(k, v)]
  | (k', v') :: t, k, v => if k' = k then (k, v) :: t else (k', v') :: dset t k v

theorem dget_dset_self {α β : Type} [DecidableEq α] (l : List (α × β)) (k : α) (v : β) :
    dget (dset l k v) k = some v := by
  induction l with
  | nil => simp [dget, dset]
  | cons p t ih =>
    obtain ⟨k', v'⟩ := p
    by_cases h : k' = k
    · subst h; simp [dget, dset]
    · simp [dget, dset, h, ih]

theorem dget_dset_ne {α β : Type} [DecidableEq α] (l : List (α × β)) (k k' : α) (v : β)
    (h : k ≠ k') : dget (dset l k v) k' = dget l k' := by
  induction l with
  | nil => simp [dget, dset, h]
  | cons p t ih =>
    obtain ⟨k₀, v₀⟩ := p
    by_cases h₀ : k₀ = k
    · subst h₀; simp [dget, dset, h]
    · simp only [dset, if_neg h₀, dget]
      by_cases h₁ : k₀ = k'
      · simp [h₁]
      · simp [h₁, ih]

theorem dget_mem {α β : Type} [DecidableEq α] {l : List (α × β)} {k : α} {v : β}
    (h : dget l k = some v) : (k, v) ∈ l := by
  induction l with
  | nil => simp [dget] at h
  | cons p t ih =>
    obtain ⟨k₀, v₀⟩ := p
    by_cases h₀ : k₀ = k
    · subst h₀
      simp [dget] at h
      subst h; exact List.mem_cons_self _ _
    · simp only [dget, if_neg h₀] at h
      exact List.mem_cons_of_mem _ (ih h)

theorem dget_isSome_iff_mem_keys {α β : Type} [DecidableEq α] (l : List (α × β)) (k : α) :
    (dget l k).isSome ↔ k ∈ l.map Prod.fst := by
  induction l with
  | nil => simp [dget]
  | cons p t ih =>
    obtain ⟨k₀, v₀⟩ := p
    by_cases h₀ : k₀ = k
    · subst h₀; simp [dget]
    · simp [dget, h₀, ih, Ne.symm h₀]

theorem dget_eq_some_of_mem {α β : Type} [DecidableEq α] {l : List (α × β)} {k : α} {v : β}
    (hn : (l.map Prod.fst).Nodup) (hm : (k, v) ∈ l) : dget l k = some v := by
  induction l with
  | nil => simp at hm
  | cons p t ih =>
    obtain ⟨k₀, v₀⟩ := p
    simp only [List.map_cons, List.nodup_cons] at hn
    rcases List.mem_cons.mp hm with h | h
    · cases h; simp [dget]
    · have hk : k₀ ≠ k := by
        intro he; subst he
        exact hn.1 (List.mem_map.mpr ⟨(k₀, v), h, rfl⟩)
      simp [dget, hk, ih hn.2 h]

theorem dkeys_dset_mem {α β : Type} [DecidableEq α] (l : List (α × β)) (k : α) (v : β)
    (h : k ∈ l.map Prod.fst) : (dset l k v).map Prod.fst = l.map Prod.fst := by
  induction l with
  | nil => simp at h
  | cons p t ih =>
    obtain ⟨k₀, v₀⟩ := p
    by_cases h₀ : k₀ = k
    · subst h₀; simp [dset]
    · simp only [List.map_cons, List.mem_cons] at h
      rcases h with h | h
      · exact absurd h.symm h₀
      · simp [dset, h₀, ih h]

theorem dkeys_dset_fresh {α β : Type} [DecidableEq α] (l : List (α × β)) (k : α) (v : β)
    (h : k ∉ l.map Prod.fst) : (dset l k v).map Prod.fst = l.map Prod.fst ++ [k] := by
  induction l with
  | nil => simp [dset]
  | cons p t ih =>
    obtain ⟨k₀, v₀⟩ := p
    simp only [List.map_cons, List.mem_cons] at h
    push_neg at h
    simp [dset, Ne.symm h.1, ih h.2]

theorem dset_nodup_keys {α β : Type} [DecidableEq α] (l : List (α × β)) (k : α) (v : β)
    (h : (l.map Prod.fst).Nodup) : ((dset l k v).map Prod.fst).Nodup := by
  by_cases hk : k ∈ l.map Prod.fst
  · rw [dkeys_dset_mem l k v hk]; exact h
  · rw [dkeys_dset_fresh l k v hk]
    refine List.Nodup.append h (List.nodup_singleton k) ?_
    intro a ha hb
    simp only [List.mem_singleton] at hb
    subst hb; exact hk ha

theorem dget_append {α β : Type} [DecidableEq α] (l₁ l₂ : List (α × β)) (k : α) :
    dget (l₁ ++ l₂) k = match dget l₁ k with | some v => some v | none => dget l₂ k := by
  induction l₁ with
  | nil => simp [dget]
  | cons p t ih =>
    obtain ⟨k₀, v₀⟩ := p
    by_cases h₀ : k₀ = k
    · subst h₀; simp [dget]
    · simp [dget, h₀, ih]

/-- Lookup on a mapped association list (the map keeps keys, transforms values). -/
theorem dget_map_snd {α β γ : Type} [DecidableEq α] (l : List (α × β)) (f : β → γ) (k : α) :
    dget (l.map (fun p => (p.1, f p.2))) k = (dget l k).map f := by
  induction l with
  | nil => simp [dget]
  | cons p t ih =>
    obtain ⟨k₀, v₀⟩ := p
    by_cases h₀ : k₀ = k
    · subst h₀; simp [dget]
    · simp [dget, h₀, ih]

theorem dset_map_snd {α β γ : Type} [DecidableEq α] (l : List (α × β)) (f : β → γ)
    (k : α) (v : β) :
    (dset l k v).map (fun p => (p.1, f p.2)) = dset (l.map (fun p => (p.1, f p.2))) k (f v) := by
  induction l with
  | nil => simp [dset]
  | cons p t ih =>
    obtain ⟨k₀, v₀⟩ := p
    by_cases h₀ : k₀ = k
    · subst h₀; simp [dset]
    · simp [dset, h₀, ih]

/-- The timestamps of a DataFrame cell map. -/
abbrev CellKey := Nat × String

/-- Model of a pandas DataFrame: a row index of timestamps, a column list,
and a finite map giving the present (non-NaN) cells.  A cell absent from
val is a missing value (NaN). -/
structure DF where
  index : List Nat
  cols : List String
  val : List (CellKey × Int)
deriving DecidableEq

/-- The default DataFrame (used only as the default of heap dereferences). -/
def dfDefault : DF := ⟨[], [], []⟩

/-- Cell access df.loc[t, c]: a present value is some v, a missing/absent
cell is none.  Only cells inside the frame (row in index, column in cols)
can be present. -/
def DF.get (df : DF) (t : Nat) (c : String) : Option Int :=
  if t ∈ df.index ∧ c ∈ df.cols then dget df.val (t, c) else none

theorem DF.get_some_mem {df : DF} {t : Nat} {c : String} {v : Int}
    (h : df.get t c = some v) : t ∈ df.index ∧ c ∈ df.cols := by
  by_cases hm : t ∈ df.index ∧ c ∈ df.cols
  · exact hm
  · simp [DF.get, hm] at h

/-- pandas Index.union of two integer/datetime indexes: set union, duplicates
collapsed, sorted ascending. -/
def sortedUnion (a b : List Nat) : List Nat :=
  List.insertionSort (· ≤ ·) ((a ++ b).dedup)

theorem mem_sortedUnion (a b : List Nat) (t : Nat) :
    t ∈ sortedUnion a b ↔ t ∈ a ∨ t ∈ b := by
  unfold sortedUnion
  rw [(List.perm_insertionSort (· ≤ ·) ((a ++ b).dedup)).mem_iff]
  simp [List.mem_dedup]

theorem sortedUnion_nodup (a b : List Nat) : (sortedUnion a b).Nodup := by
  unfold sortedUnion
  exact (List.perm_insertionSort (· ≤ ·) ((a ++ b).dedup)).nodup_iff.mpr (List.nodup_dedup _)

theorem sortedUnion_sorted (a b : List Nat) :
    (sortedUnion a b).Sorted (· < ·) := by
  have hle : (sortedUnion a b).Sorted (· ≤ ·) :=
    List.sorted_insertionSort (· ≤ ·) ((a ++ b).dedup)
  have hnd : (sortedUnion a b).Nodup := sortedUnion_nodup a b
  exact (List.Pairwise.and hle hnd).imp (fun h => lt_of_le_of_ne h.1 h.2)

/-- pandas DataFrame.reindex(index=u): keep only rows whose label is in u;
labels of u absent from the frame get all-missing rows. -/
def DF.reindex (df : DF) (u : List Nat) : DF :=
  ⟨u, df.cols, df.val.filter (fun e => decide (e.1.1 ∈ u))⟩

/-- The cells of a frame with index idx, columns cols and cell function f. -/
def cellsOf (idx : List Nat) (cols : List String) (f : Nat → String → Option Int) :
    List (CellKey × Int) :=
  idx.flatMap (fun t => cols.filterMap (fun c => (f t c).map (fun v => ((t, c), v))))

/-- pandas DataFrame.update(other) (with the default overwrite=True): for
every cell of the receiver's frame where other has a present value, that
value overwrites the receiver's; other's missing cells leave the receiver
untouched.  Rows/columns of other outside the receiver's frame are ignored. -/
def DF.update (df other : DF) : DF :=
  ⟨df.index, df.cols,
    cellsOf df.index df.cols
      (fun t c => match other.get t c with | some v => some v | none => df.get t c)⟩

theorem dget_rowCells (t₀ : Nat) (cols : List String) (f : Nat → String → Option Int)
    (t : Nat) (c : String) :
    dget (cols.filterMap (fun c' => (f t₀ c').map (fun v => ((t₀, c'), v)))) (t, c)
      = if t = t₀ ∧ c ∈ cols then f t₀ c else none := by
  induction cols with
  | nil => simp [dget]
  | cons c₀ cs ih =>
    cases hf : f t₀ c₀ with
    | none =>
      simp only [List.filterMap_cons, hf, Option.map_none']
      rw [ih]
      by_cases ht : t = t₀
      · subst ht
        by_cases hc : c = c₀
        · subst hc
          simp [hf]
        · simp [hc]
      · simp [ht]
    | some v =>
      simp only [List.filterMap_cons, hf, Option.map_some']
      by_cases ht : t = t₀
      · subst ht
        by_cases hc : c = c₀
        · subst hc
          simp [dget, hf]
        · have hk : (t, c₀) ≠ (t, c) := fun he => hc (congrArg Prod.snd he).symm
          simp only [dget, if_neg hk]
          rw [ih]
          simp [hc]
      · have hk : (t₀, c₀) ≠ (t, c) := fun he => ht (congrArg Prod.fst he).symm
        simp only [dget, if_neg hk]
        rw [ih]
        simp [ht]

theorem dget_cellsOf (idx : List Nat) (cols : List String) (f : Nat → String → Option Int)
    (t : Nat) (c : String) :
    dget (cellsOf idx cols f) (t, c) = if t ∈ idx ∧ c ∈ cols then f t c else none := by
  induction idx with
  | nil => simp [cellsOf, dget]
  | cons t₀ idx' ih =>
    unfold cellsOf at *
    simp only [List.flatMap_cons]
    rw [dget_append, dget_rowCells, ih]
    by_cases ht : t = t₀
    · subst ht
      by_cases hc : c ∈ cols
      · simp [hc]
        cases hf : f t c <;> simp [hf]
      · simp [hc]
    · simp [ht, List.mem_cons]

theorem mem_cellsOf {idx : List Nat} {cols : List String} {f : Nat → String → Option Int}
    {e : CellKey × Int} (h : e ∈ cellsOf idx cols f) : e.1.1 ∈ idx ∧ e.1.2 ∈ cols := by
  unfold cellsOf at h
  simp only [List.mem_flatMap, List.mem_filterMap, Option.map_eq_some'] at h
  obtain ⟨t, ht, c, hc, v, _, he⟩ := h
  subst he; exact ⟨ht, hc⟩

/-- Frame well-formedness: the present cells all lie inside the frame. -/
abbrev DF.cellsWF (df : DF) : Prop := ∀ e ∈ df.val, e.1.1 ∈ df.index ∧ e.1.2 ∈ df.cols

/-- A well-formed RawExtract table: cells inside the frame and a strictly
ascending row index (the readers sort the rows; row labels are unique). -/
abbrev DF.wf (df : DF) : Prop := df.cellsWF ∧ df.index.Sorted (· < ·)

theorem DF.get_none_of_not_col {df : DF} {c : String} (h : c ∉ df.cols) (t : Nat) :
    df.get t c = none := by
  simp only [DF.get, ite_eq_right_iff]
  intro hm; exact absurd hm.2 h

theorem DF.get_none_of_not_index {df : DF} {t : Nat} (h : t ∉ df.index) (c : String) :
    df.get t c = none := by
  simp only [DF.get, ite_eq_right_iff]
  intro hm; exact absurd hm.1 h

theorem dget_filter_key {α β : Type} [DecidableEq α] (l : List (α × β)) (p : α × β → Bool)
    (q : α → Bool) (hpq : ∀ e, p e = q e.1) (k : α) :
    dget (l.filter p) k = if q k then dget l k else none := by
  induction l with
  | nil => simp [dget]
  | cons e t ih =>
    obtain ⟨k₀, v₀⟩ := e
    cases hp : p (k₀, v₀) with
    | true =>
      rw [List.filter_cons_of_pos (by simp [hp])]
      by_cases hk : k₀ = k
      · subst hk
        have hq : q k₀ = true := by rw [← hpq (k₀, v₀)]; exact hp
        simp [dget, hq]
      · simp [dget, hk, ih]
    | false =>
      rw [List.filter_cons_of_neg (by simp [hp])]
      rw [ih]
      by_cases hk : k₀ = k
      · subst hk
        have hq : q k₀ = false := by rw [← hpq (k₀, v₀)]; exact hp
        simp [dget, hq]
      · simp [dget, hk]

theorem DF.get_update_eq (df other : DF) (t : Nat) (c : String) :
    (df.update other).get t c
      = if t ∈ df.index ∧ c ∈ df.cols then
          (match other.get t c with | some v => some v | none => df.get t c)
        else none := by
  show (if t ∈ df.index ∧ c ∈ df.cols then dget (cellsOf df.index df.cols _) (t, c) else none) = _
  rw [dget_cellsOf]
  by_cases h : t ∈ df.index ∧ c ∈ df.cols <;> simp [h]

theorem dget_val_none_of_cellsWF {df : DF} (hwf : df.cellsWF) {t : Nat} {c : String}
    (h : ¬(t ∈ df.index ∧ c ∈ df.cols)) : dget df.val (t, c) = none := by
  cases hd : dget df.val (t, c) with
  | none => rfl
  | some v => exact absurd (hwf _ (dget_mem hd)) h

theorem DF.get_reindex (df : DF) (hwf : df.cellsWF) (u : List Nat) (t : Nat) (c : String) :
    (df.reindex u).get t c = if t ∈ u then df.get t c else none := by
  show (if t ∈ u ∧ c ∈ df.cols then dget (df.val.filter _) (t, c) else none) = _
  rw [dget_filter_key df.val _ (fun k => decide (k.1 ∈ u)) (fun e => rfl)]
  by_cases hu : t ∈ u
  · by_cases hc : c ∈ df.cols
    · simp only [hu, hc, and_self, if_true, decide_eq_true_eq, if_pos hu]
      unfold DF.get
      by_cases hi : t ∈ df.index
      · simp [hi, hc]
      · rw [if_neg (by tauto), dget_val_none_of_cellsWF hwf (by tauto)]
    · simp [hu, hc, DF.get_none_of_not_col hc]
  · simp [hu]

/-- One merge step of aggreger_donnees (lines 236-239 of the source): extend
the accumulator to the sorted union of the indexes, then overwrite with the
incoming extract's present cells. -/
def mergeStep (cur data : DF) : DF :=
  (cur.reindex (sortedUnion cur.index data.index)).update data

theorem mergeStep_index (cur data : DF) :
    (mergeStep cur data).index = sortedUnion cur.index data.index := rfl

theorem mergeStep_cols (cur data : DF) : (mergeStep cur data).cols = cur.cols := rfl

theorem cellsWF_update (df other : DF) : (df.update other).cellsWF := by
  intro e he
  exact mem_cellsOf he

theorem mergeStep_wf (cur data : DF) : (mergeStep cur data).wf := by
  constructor
  · exact cellsWF_update _ _
  · exact sortedUnion_sorted cur.index data.index

theorem mergeStep_get (cur data : DF) (hwf : cur.cellsWF) (t : Nat) (c : String) :
    (mergeStep cur data).get t c
      = if t ∈ sortedUnion cur.index data.index ∧ c ∈ cur.cols then
          (match data.get t c with | some v => some v | none => cur.get t c)
        else none := by
  unfold mergeStep
  rw [DF.get_update_eq]
  show (if t ∈ sortedUnion cur.index data.index ∧ c ∈ cur.cols then _ else none) = _
  by_cases h : t ∈ sortedUnion cur.index data.index ∧ c ∈ cur.cols
  · rw [if_pos h, if_pos h]
    cases hd : data.get t c with
    | some v => rfl
    | none =>
      simp only
      rw [DF.get_reindex cur hwf, if_pos h.1]
  · rw [if_neg h, if_neg h]

/-- The merged value of a sequence of extracts at one cell: the value of the
last extract of the sequence holding a present value there (none if no
extract does). -/
def mergeVal (dfs : List DF) (t : Nat) (c : String) : Option Int :=
  dfs.foldl (fun acc df => match df.get t c with | some v => some v | none => acc) none

theorem mergeFold_const (t : Nat) (c : String) (l : List DF) (a : Option Int)
    (h : ∀ df ∈ l, df.get t c = none) :
    l.foldl (fun acc df => match df.get t c with | some v => some v | none => acc) a = a := by
  induction l generalizing a with
  | nil => rfl
  | cons d l' ih =>
    have hd : d.get t c = none := h d (List.mem_cons_self _ _)
    simp only [List.foldl_cons, hd]
    exact ih a (fun df hm => h df (List.mem_cons_of_mem _ hm))

theorem mergeVal_append (l : List DF) (d : DF) (t : Nat) (c : String) :
    mergeVal (l ++ [d]) t c
      = match d.get t c with | some v => some v | none => mergeVal l t c := by
  unfold mergeVal
  rw [List.foldl_append]
  rfl

theorem mergeVal_eq_none_iff (l : List DF) (t : Nat) (c : String) :
    mergeVal l t c = none ↔ ∀ df ∈ l, df.get t c = none := by
  induction l using List.reverseRecOn with
  | nil => simp [mergeVal]
  | append_singleton l' d ih =>
    rw [mergeVal_append]
    cases hd : d.get t c with
    | some v =>
      simp only
      constructor
      · intro h; exact absurd h (by simp)
      · intro h
        have := h d (by simp)
        rw [this] at hd; exact absurd hd (by simp)
    | none =>
      simp only
      rw [ih]
      constructor
      · intro h df hm
        rcases List.mem_append.mp hm with hm' | hm'
        · exact h df hm'
        · simp only [List.mem_singleton] at hm'; subst hm'; exact hd
      · intro h df hm
        exact h df (List.mem_append.mpr (Or.inl hm))

theorem mergeVal_some_mem {l : List DF} {t : Nat} {c : String} {v : Int}
    (h : mergeVal l t c = some v) : ∃ df ∈ l, df.get t c = some v := by
  induction l using List.reverseRecOn with
  | nil => simp [mergeVal] at h
  | append_singleton l' d ih =>
    rw [mergeVal_append] at h
    cases hd : d.get t c with
    | some w =>
      rw [hd] at h
      simp only [Option.some.injEq] at h
      subst h
      exact ⟨d, by simp, hd⟩
    | none =>
      rw [hd] at h
      obtain ⟨df, hm, hv⟩ := ih h
      exact ⟨df, List.mem_append.mpr (Or.inl hm), hv⟩

theorem mergeVal_last (l₁ l₂ : List DF) (E : DF) (t : Nat) (c : String) (v : Int)
    (hE : E.get t c = some v) (h₂ : ∀ df ∈ l₂, df.get t c = none) :
    mergeVal (l₁ ++ E :: l₂) t c = some v := by
  have hsplit : l₁ ++ E :: l₂ = (l₁ ++ [E]) ++ l₂ := by simp
  rw [hsplit]
  unfold mergeVal
  rw [List.foldl_append]
  have h1 : mergeVal (l₁ ++ [E]) t c = some v := by
    rw [mergeVal_append, hE]
  unfold mergeVal at h1
  rw [h1]
  exact mergeFold_const t c l₂ (some v) h₂

theorem mergeVal_skip (l₁ l₂ : List DF) (E : DF) (t : Nat) (c : String)
    (hE : E.get t c = none) (h₂ : ∀ df ∈ l₂, df.get t c = none) :
    mergeVal (l₁ ++ E :: l₂) t c = mergeVal l₁ t c := by
  have hsplit : l₁ ++ E :: l₂ = (l₁ ++ [E]) ++ l₂ := by simp
  rw [hsplit]
  unfold mergeVal
  rw [List.foldl_append]
  have h1 : mergeVal (l₁ ++ [E]) t c = mergeVal l₁ t c := by
    rw [mergeVal_append, hE]
  unfold mergeVal at h1
  rw [h1]
  exact mergeFold_const t c l₂ _ h₂

/-- One step of the reconciliation fold (lines 234-242 of the source): the
first extract initializes the accumulator, each further one is merged in. -/
def foldStation (acc : Option DF) (df : DF) : Option DF :=
  match acc with
  | none => some df
  | some cur => some (mergeStep cur df)

/-- The reconciliation fold over a list of extracts, in list order. -/
def foldDFs (dfs : List DF) : Option DF := dfs.foldl foldStation none

theorem foldDFs_append (l : List DF) (d : DF) :
    foldDFs (l ++ [d]) = foldStation (foldDFs l) d := by
  unfold foldDFs
  rw [List.foldl_append]
  rfl

/-- Core invariant of the reconciliation fold: folding a nonempty sequence of
well-formed extracts with common columns yields a well-formed frame whose
index is the set union of the extracts' indexes and whose cells are the
last-present-value merge of the sequence. -/
theorem foldDFs_spec (C : List String) (dfs : List DF) (hne : dfs ≠ [])
    (hall : ∀ df ∈ dfs, df.wf ∧ df.cols = C) :
    ∃ R, foldDFs dfs = some R ∧ R.wf ∧ R.cols = C ∧
      (∀ t, t ∈ R.index ↔ ∃ df ∈ dfs, t ∈ df.index) ∧
      (∀ t c, R.get t c = mergeVal dfs t c) := by
  induction dfs using List.reverseRecOn with
  | nil => exact absurd rfl hne
  | append_singleton l d ih =>
    have hd := hall d (by simp)
    rcases eq_or_ne l [] with hl | hl
    · subst hl
      refine ⟨d, rfl, hd.1, hd.2, by simp, ?_⟩
      intro t c
      have : mergeVal [d] t c = match d.get t c with | some v => some v | none => none := rfl
      rw [show ([] ++ [d] : List DF) = [d] from by simp, this]
      cases hg : d.get t c <;> simp [hg]
    · have hall' : ∀ df ∈ l, df.wf ∧ df.cols = C :=
        fun df hm => hall df (List.mem_append.mpr (Or.inl hm))
      obtain ⟨R, hfold, hwf, hcols, hmem, hget⟩ := ih hl hall'
      refine ⟨mergeStep R d, ?_, mergeStep_wf R d, ?_, ?_, ?_⟩
      · rw [foldDFs_append, hfold]; rfl
      · rw [mergeStep_cols, hcols]
      · intro t
        rw [mergeStep_index, mem_sortedUnion]
        simp only [hmem, List.mem_append, List.mem_singleton]
        constructor
        · rintro (⟨df, hm, hi⟩ | hi)
          · exact ⟨df, Or.inl hm, hi⟩
          · exact ⟨d, Or.inr rfl, hi⟩
        · rintro ⟨df, hm | hm, hi⟩
          · exact Or.inl ⟨df, hm, hi⟩
          · subst hm; exact Or.inr hi
      · intro t c
        rw [mergeStep_get R d hwf.1, mergeVal_append]
        by_cases hU : t ∈ sortedUnion R.index d.index
        · by_cases hC : c ∈ R.cols
          · rw [if_pos ⟨hU, hC⟩]
            cases hg : d.get t c <;> simp [hget]
          · rw [if_neg (by tauto)]
            cases hg : d.get t c with
            | some v =>
              have hcd : c ∈ d.cols := (DF.get_some_mem hg).2
              rw [hd.2, ← hcols] at hcd
              exact absurd hcd hC
            | none =>
              symm
              rw [mergeVal_eq_none_iff]
              intro df hm
              have : c ∉ df.cols := by
                rw [(hall' df hm).2, ← hcols]; exact hC
              exact DF.get_none_of_not_col this t
        · rw [if_neg (by tauto)]
          have htR : t ∉ R.index := fun hi => hU ((mem_sortedUnion _ _ t).mpr (Or.inl hi))
          have htd : t ∉ d.index := fun hi => hU ((mem_sortedUnion _ _ t).mpr (Or.inr hi))
          rw [DF.get_none_of_not_index htd]
          symm
          rw [mergeVal_eq_none_iff]
          intro df hm
          have : t ∉ df.index := fun hi => htR ((hmem t).mpr ⟨df, hm, hi⟩)
          exact DF.get_none_of_not_index this c

/-- A station's ledger: the Python dict last_date -> DataFrame. -/
abbrev Ledger := List (Nat × DF)

/-- The collector's output tab_data: the dict station -> (dict last_date -> DataFrame). -/
abbrev TabData := List (String × Ledger)

/-- Python sorted(tab_data[nom_station]) (line 229): the dict's keys, each
once, in ascending order. -/
def sortedDates {β : Type} (ledger : List (Nat × β)) : List Nat :=
  List.insertionSort (· ≤ ·) ((ledger.map Prod.fst).dedup)

theorem mem_sortedDates {β : Type} (ledger : List (Nat × β)) (d : Nat) :
    d ∈ sortedDates ledger ↔ d ∈ ledger.map Prod.fst := by
  unfold sortedDates
  rw [(List.perm_insertionSort (· ≤ ·) _).mem_iff]
  exact List.mem_dedup

theorem sortedDates_nodup {β : Type} (ledger : List (Nat × β)) : (sortedDates ledger).Nodup :=
  (List.perm_insertionSort (· ≤ ·) _).nodup_iff.mpr (List.nodup_dedup _)

theorem sortedDates_sorted_lt {β : Type} (ledger : List (Nat × β)) :
    (sortedDates ledger).Sorted (· < ·) := by
  have hle : (sortedDates ledger).Sorted (· ≤ ·) :=
    List.sorted_insertionSort (· ≤ ·) _
  exact (List.Pairwise.and hle (sortedDates_nodup ledger)).imp
    (fun h => lt_of_le_of_ne h.1 h.2)

/-- The per-station date loop of aggreger_donnees (lines 231-242), carried
out on the resultat dict exactly as in the source: for each last date in
ascending order, fetch the extract; if the station is already present in
resultat, merge (reindex to the union, then update), else initialize with
the extract itself. -/
def aggreger_inner (nom_station : String) (ledger : Ledger) :
    List Nat → List (String × DF) → List (String × DF)
  | [], resultat => resultat
  | derniere_date :: rest, resultat =>
    match dget ledger derniere_date with
    | none => aggreger_inner nom_station ledger rest resultat
    | some data_station =>
      match dget resultat nom_station with
      | some cur =>
          aggreger_inner nom_station ledger rest
            (dset resultat nom_station (mergeStep cur data_station))
      | none =>
          aggreger_inner nom_station ledger rest
            (dset resultat nom_station data_station)

/-- The station loop of aggreger_donnees (line 227). -/
def aggreger_outer : TabData → List (String × DF) → List (String × DF)
  | [], resultat => resultat
  | (nom_station, ledger) :: rest, resultat =>
    aggreger_outer rest (aggreger_inner nom_station ledger (sortedDates ledger) resultat)

/-- aggreger_donnees (lines 212-244 of the source): fold every station's
ledger in ascending last-date order into one reconciled frame per station. -/
def aggreger_donnees (tab_data : TabData) : List (String × DF) :=
  aggreger_outer tab_data []

/-- The per-station fold expressed on an Option accumulator. -/
def stationFold (ledger : Ledger) : List Nat → Option DF → Option DF
  | [], acc => acc
  | d :: rest, acc =>
    stationFold ledger rest
      (match dget ledger d with | none => acc | some df => foldStation acc df)

/-- The reconciled frame of one station's ledger. -/
def aggregerStation (ledger : Ledger) : Option DF :=
  stationFold ledger (sortedDates ledger) none

/-- The extracts of a ledger in ascending last-date order. -/
def dfsOf (ledger : Ledger) : List DF :=
  (sortedDates ledger).filterMap (dget ledger)

theorem stationFold_eq_foldl (ledger : Ledger) :
    ∀ (dates : List Nat) (acc : Option DF),
      stationFold ledger dates acc = (dates.filterMap (dget ledger)).foldl foldStation acc := by
  intro dates
  induction dates with
  | nil => intro acc; rfl
  | cons d rest ih =>
    intro acc
    cases hd : dget ledger d with
    | none => simp only [stationFold, hd, List.filterMap_cons, ih]
    | some df => simp only [stationFold, hd, List.filterMap_cons, ih, List.foldl_cons]

theorem aggregerStation_eq (ledger : Ledger) :
    aggregerStation ledger = foldDFs (dfsOf ledger) := by
  unfold aggregerStation dfsOf foldDFs
  exact stationFold_eq_foldl ledger (sortedDates ledger) none

theorem aggreger_inner_get_self (nom_station : String) (ledger : Ledger) :
    ∀ (dates : List Nat) (res : List (String × DF)),
      dget (aggreger_inner nom_station ledger dates res) nom_station
        = stationFold ledger dates (dget res nom_station) := by
  intro dates
  induction dates with
  | nil => intro res; rfl
  | cons d rest ih =>
    intro res
    cases hd : dget ledger d with
    | none => simp only [aggreger_inner, stationFold, hd, ih]
    | some df =>
      cases hr : dget res nom_station with
      | some cur =>
        simp only [aggreger_inner, stationFold, hd, hr, ih, foldStation]
        rw [dget_dset_self]
      | none =>
        simp only [aggreger_inner, stationFold, hd, hr, ih, foldStation]
        rw [dget_dset_self]

theorem aggreger_inner_get_ne (nom_station : String) (ledger : Ledger) (s : String)
    (hs : s ≠ nom_station) :
    ∀ (dates : List Nat) (res : List (String × DF)),
      dget (aggreger_inner nom_station ledger dates res) s = dget res s := by
  intro dates
  induction dates with
  | nil => intro res; rfl
  | cons d rest ih =>
    intro res
    cases hd : dget ledger d with
    | none => simp only [aggreger_inner, hd, ih]
    | some df =>
      cases hr : dget res nom_station with
      | some cur =>
        simp only [aggreger_inner, hd, hr, ih]
        exact dget_dset_ne _ _ _ _ (Ne.symm hs)
      | none =>
        simp only [aggreger_inner, hd, hr, ih]
        exact dget_dset_ne _ _ _ _ (Ne.symm hs)

theorem aggreger_outer_append (l₁ l₂ : TabData) (res : List (String × DF)) :
    aggreger_outer (l₁ ++ l₂) res = aggreger_outer l₂ (aggreger_outer l₁ res) := by
  induction l₁ generalizing res with
  | nil => rfl
  | cons p rest ih =>
    obtain ⟨s, ledger⟩ := p
    simp only [List.cons_append, aggreger_outer]
    exact ih _

theorem aggreger_outer_get_notin (tab : TabData) (s : String)
    (h : s ∉ tab.map Prod.fst) (res : List (String × DF)) :
    dget (aggreger_outer tab res) s = dget res s := by
  induction tab generalizing res with
  | nil => rfl
  | cons p rest ih =>
    obtain ⟨s₀, ledger⟩ := p
    simp only [List.map_cons, List.mem_cons] at h
    push_neg at h
    simp only [aggreger_outer]
    rw [ih h.2, aggreger_inner_get_ne s₀ ledger s h.1]

/-- Bridge: under the dict invariant (unique station keys), the reconciled
frame of station s in aggreger_donnees' output is the per-station fold of
its ledger. -/
theorem aggreger_donnees_get (tab : TabData) (hkeys : (tab.map Prod.fst).Nodup)
    {s : String} {ledger : Ledger} (hmem : (s, ledger) ∈ tab) :
    dget (aggreger_donnees tab) s = aggregerStation ledger := by
  obtain ⟨l₁, l₂, hsplit⟩ := List.append_of_mem hmem
  subst hsplit
  have hk : s ∉ l₁.map Prod.fst ∧ s ∉ l₂.map Prod.fst := by
    rw [List.map_append, List.map_cons] at hkeys
    have h₁ := List.Nodup.of_append_left hkeys
    have h₂ := List.Nodup.of_append_right hkeys
    constructor
    · intro hs
      have := (List.nodup_append.mp hkeys).2.2
      exact this hs (List.mem_cons_self _ _)
    · simp only [List.nodup_cons] at h₂
      exact h₂.1
  unfold aggreger_donnees
  rw [aggreger_outer_append]
  show dget (aggreger_outer ((s, ledger) :: l₂) _) s = _
  simp only [aggreger_outer]
  rw [aggreger_outer_get_notin l₂ s hk.2, aggreger_inner_get_self,
    aggreger_outer_get_notin l₁ s hk.1]
  rfl

theorem aggreger_donnees_get_notin (tab : TabData) {s : String}
    (h : s ∉ tab.map Prod.fst) :
    dget (aggreger_donnees tab) s = none := by
  unfold aggreger_donnees
  rw [aggreger_outer_get_notin tab s h]
  rfl

theorem sortedDates_split (ledger : Ledger) {dE : Nat} (hdE : dE ∈ ledger.map Prod.fst) :
    ∃ l₁ l₂, sortedDates ledger = l₁ ++ dE :: l₂ ∧ (∀ x ∈ l₁, x < dE) ∧ (∀ x ∈ l₂, dE < x) := by
  have hmem : dE ∈ sortedDates ledger := (mem_sortedDates _ _).mpr hdE
  obtain ⟨l₁, l₂, hsplit⟩ := List.append_of_mem hmem
  have hs : List.Pairwise (· < ·) (l₁ ++ dE :: l₂) := by
    have := sortedDates_sorted_lt ledger
    rw [hsplit] at this
    exact this
  rw [List.pairwise_append] at hs
  obtain ⟨_, h₂, h₃⟩ := hs
  exact ⟨l₁, l₂, hsplit,
    fun x hx => h₃ x hx dE (List.mem_cons_self _ _),
    fun x hx => (List.pairwise_cons.mp h₂).1 x hx⟩

theorem mem_dfsOf_of_mem {ledger : Ledger} (hnd : (ledger.map Prod.fst).Nodup)
    {d : Nat} {df : DF} (hm : (d, df) ∈ ledger) : df ∈ dfsOf ledger := by
  unfold dfsOf
  exact List.mem_filterMap.mpr
    ⟨d, (mem_sortedDates _ _).mpr (List.mem_map.mpr ⟨(d, df), hm, rfl⟩),
      dget_eq_some_of_mem hnd hm⟩

theorem mem_of_mem_dfsOf {ledger : Ledger} {df : DF} (h : df ∈ dfsOf ledger) :
    ∃ d, (d, df) ∈ ledger := by
  unfold dfsOf at h
  obtain ⟨d, _, hf⟩ := List.mem_filterMap.mp h
  exact ⟨d, dget_mem hf⟩

/-- Index part of the fold invariant, needing only sorted extract indexes. -/
theorem foldDFs_index (dfs : List DF) (hne : dfs ≠ [])
    (hsorted : ∀ df ∈ dfs, df.index.Sorted (· < ·)) :
    ∃ R, foldDFs dfs = some R ∧ R.index.Sorted (· < ·) ∧
      (∀ t, t ∈ R.index ↔ ∃ df ∈ dfs, t ∈ df.index) := by
  induction dfs using List.reverseRecOn with
  | nil => exact absurd rfl hne
  | append_singleton l d ih =>
    rcases eq_or_ne l [] with hl | hl
    · subst hl
      exact ⟨d, rfl, hsorted d (by simp), by simp⟩
    · have hsorted' : ∀ df ∈ l, df.index.Sorted (· < ·) :=
        fun df hm => hsorted df (List.mem_append.mpr (Or.inl hm))
      obtain ⟨R, hfold, hRs, hRmem⟩ := ih hl hsorted'
      refine ⟨mergeStep R d, ?_, ?_, ?_⟩
      · rw [foldDFs_append, hfold]; rfl
      · rw [mergeStep_index]; exact sortedUnion_sorted _ _
      · intro t
        rw [mergeStep_index, mem_sortedUnion]
        simp only [hRmem, List.mem_append, List.mem_singleton]
        constructor
        · rintro (⟨df, hm, hi⟩ | hi)
          · exact ⟨df, Or.inl hm, hi⟩
          · exact ⟨d, Or.inr rfl, hi⟩
        · rintro ⟨df, hm | hm, hi⟩
          · exact Or.inl ⟨df, hm, hi⟩
          · subst hm; exact Or.inr hi

/-- C1 — Overwrite priority: for an entity of the ledger mapping and a cell
(t, c), if the extract with the greatest vintage among the entity's extracts
whose index contains t has a present value at (t, c), then the reconciled
series produced by aggreger_donnees holds exactly that value there,
whatever older-vintage extracts reported. -/
theorem overwrite_priority_c1
    (tab : TabData) (s : String) (ledger : Ledger) (E : DF) (dE t : Nat) (c : String) (v : Int)
    (hkeys : (tab.map Prod.fst).Nodup)
    (hmem : (s, ledger) ∈ tab)
    (hledkeys : (ledger.map Prod.fst).Nodup)
    (hwf : ∀ p ∈ ledger, (p.2 : DF).wf)
    (hcols : ∀ p ∈ ledger, (p.2 : DF).cols = E.cols)
    (hE : (dE, E) ∈ ledger)
    (hmax : ∀ p ∈ ledger, t ∈ (p.2 : DF).index → p.1 ≤ dE)
    (hval : E.get t c = some v) :
    ∃ R, dget (aggreger_donnees tab) s = some R ∧ R.get t c = some v := by
  rw [aggreger_donnees_get tab hkeys hmem, aggregerStation_eq]
  have hfE : dget ledger dE = some E := dget_eq_some_of_mem hledkeys hE
  obtain ⟨l₁, l₂, hsplit, hlt, hgt⟩ :=
    sortedDates_split ledger (List.mem_map.mpr ⟨(dE, E), hE, rfl⟩)
  have hdecomp : dfsOf ledger
      = l₁.filterMap (dget ledger) ++ E :: l₂.filterMap (dget ledger) := by
    unfold dfsOf
    rw [hsplit, List.filterMap_append]
    simp [hfE]
  have hall : ∀ df ∈ dfsOf ledger, df.wf ∧ df.cols = E.cols := by
    intro df hm
    obtain ⟨d, hd⟩ := mem_of_mem_dfsOf hm
    exact ⟨hwf _ hd, hcols _ hd⟩
  have hne : dfsOf ledger ≠ [] := by rw [hdecomp]; simp
  obtain ⟨R, hfold, _, _, _, hRget⟩ := foldDFs_spec E.cols _ hne hall
  refine ⟨R, hfold, ?_⟩
  rw [hRget, hdecomp]
  apply mergeVal_last
  · exact hval
  · intro df hm
    obtain ⟨d', hd'm, hd'f⟩ := List.mem_filterMap.mp hm
    have hmem' : (d', df) ∈ ledger := dget_mem hd'f
    have hgt' : dE < d' := hgt d' hd'm
    have hti : t ∉ df.index := fun hi => absurd (hmax (d', df) hmem' hi) (by omega)
    exact DF.get_none_of_not_index hti c

/-- C2 — Gap preservation: if the highest-vintage extract covering timestamp
t has a missing value at (t, c) while some earlier-vintage extract has a
present value there, the reconciled series produced by aggreger_donnees
keeps an earlier extract's present value at that cell; the later extract's
gap erases nothing. -/
theorem gap_preservation_c2
    (tab : TabData) (s : String) (ledger : Ledger) (E D₀ : DF) (dE d₀ t : Nat) (c : String)
    (w : Int)
    (hkeys : (tab.map Prod.fst).Nodup)
    (hmem : (s, ledger) ∈ tab)
    (hledkeys : (ledger.map Prod.fst).Nodup)
    (hwf : ∀ p ∈ ledger, (p.2 : DF).wf)
    (hcols : ∀ p ∈ ledger, (p.2 : DF).cols = E.cols)
    (hE : (dE, E) ∈ ledger)
    (hcovE : t ∈ E.index)
    (hmax : ∀ p ∈ ledger, t ∈ (p.2 : DF).index → p.1 ≤ dE)
    (hmiss : E.get t c = none)
    (hD₀ : (d₀, D₀) ∈ ledger)
    (hval₀ : D₀.get t c = some w) :
    ∃ R v d' df', dget (aggreger_donnees tab) s = some R ∧ (d', df') ∈ ledger ∧
      d' < dE ∧ df'.get t c = some v ∧ R.get t c = some v := by
  rw [aggreger_donnees_get tab hkeys hmem, aggregerStation_eq]
  have hfE : dget ledger dE = some E := dget_eq_some_of_mem hledkeys hE
  obtain ⟨l₁, l₂, hsplit, hlt, hgt⟩ :=
    sortedDates_split ledger (List.mem_map.mpr ⟨(dE, E), hE, rfl⟩)
  have hdecomp : dfsOf ledger
      = l₁.filterMap (dget ledger) ++ E :: l₂.filterMap (dget ledger) := by
    unfold dfsOf
    rw [hsplit, List.filterMap_append]
    simp [hfE]
  have hall : ∀ df ∈ dfsOf ledger, df.wf ∧ df.cols = E.cols := by
    intro df hm
    obtain ⟨d, hd⟩ := mem_of_mem_dfsOf hm
    exact ⟨hwf _ hd, hcols _ hd⟩
  have hne : dfsOf ledger ≠ [] := by rw [hdecomp]; simp
  obtain ⟨R, hfold, _, _, _, hRget⟩ := foldDFs_spec E.cols _ hne hall
  have hpostnone : ∀ df ∈ l₂.filterMap (dget ledger), df.get t c = none := by
    intro df hm
    obtain ⟨d', hd'm, hd'f⟩ := List.mem_filterMap.mp hm
    have hmem' : (d', df) ∈ ledger := dget_mem hd'f
    have hgt' : dE < d' := hgt d' hd'm
    have hti : t ∉ df.index := fun hi => absurd (hmax (d', df) hmem' hi) (by omega)
    exact DF.get_none_of_not_index hti c
  have hRval : R.get t c = mergeVal (l₁.filterMap (dget ledger)) t c := by
    rw [hRget, hdecomp]
    exact mergeVal_skip _ _ _ _ _ hmiss hpostnone
  -- the earlier present extract sits strictly below dE
  have hcov₀ : t ∈ D₀.index := (DF.get_some_mem hval₀).1
  have hle₀ : d₀ ≤ dE := hmax (d₀, D₀) hD₀ hcov₀
  have hne₀ : d₀ ≠ dE := by
    intro he; subst he
    have : dget ledger d₀ = some D₀ := dget_eq_some_of_mem hledkeys hD₀
    rw [this] at hfE
    cases hfE
    rw [hval₀] at hmiss
    exact Option.noConfusion hmiss
  have hlt₀ : d₀ < dE := lt_of_le_of_ne hle₀ hne₀
  have hd₀dates : d₀ ∈ sortedDates ledger :=
    (mem_sortedDates _ _).mpr (List.mem_map.mpr ⟨(d₀, D₀), hD₀, rfl⟩)
  have hd₀l₁ : d₀ ∈ l₁ := by
    rw [hsplit] at hd₀dates
    rcases List.mem_append.mp hd₀dates with h | h
    · exact h
    · rcases List.mem_cons.mp h with h | h
      · exact absurd h (by omega)
      · exact absurd (hgt d₀ h) (by omega)
  have hD₀pre : D₀ ∈ l₁.filterMap (dget ledger) :=
    List.mem_filterMap.mpr ⟨d₀, hd₀l₁, dget_eq_some_of_mem hledkeys hD₀⟩
  have hnn : mergeVal (l₁.filterMap (dget ledger)) t c ≠ none := by
    rw [Ne, mergeVal_eq_none_iff]
    intro hforall
    have := hforall D₀ hD₀pre
    rw [hval₀] at this
    exact Option.noConfusion this
  obtain ⟨v, hv⟩ := Option.ne_none_iff_exists'.mp hnn
  obtain ⟨df', hdf'pre, hdf'val⟩ := mergeVal_some_mem hv
  obtain ⟨d', hd'l₁, hd'f⟩ := List.mem_filterMap.mp hdf'pre
  exact ⟨R, v, d', df', hfold, dget_mem hd'f, hlt d' hd'l₁, hdf'val, by rw [hRval]; exact hv⟩

/-- C3 — Union property: for an entity of the ledger mapping, the reconciled
series produced by aggreger_donnees has as row index exactly the set union
of the timestamp indexes of the ledger's extracts, duplicates collapsed and
sorted in ascending order. -/
theorem union_property_c3
    (tab : TabData) (s : String) (ledger : Ledger)
    (hkeys : (tab.map Prod.fst).Nodup)
    (hmem : (s, ledger) ∈ tab)
    (hledkeys : (ledger.map Prod.fst).Nodup)
    (hne : ledger ≠ [])
    (hsorted : ∀ p ∈ ledger, ((p.2 : DF)).index.Sorted (· < ·)) :
    ∃ R, dget (aggreger_donnees tab) s = some R ∧ R.index.Sorted (· < ·) ∧ R.index.Nodup ∧
      (∀ t, t ∈ R.index ↔ ∃ p ∈ ledger, t ∈ ((p.2 : DF)).index) := by
  rw [aggreger_donnees_get tab hkeys hmem, aggregerStation_eq]
  have hs : ∀ df ∈ dfsOf ledger, df.index.Sorted (· < ·) := by
    intro df hm
    obtain ⟨d, hd⟩ := mem_of_mem_dfsOf hm
    exact hsorted _ hd
  have hne' : dfsOf ledger ≠ [] := by
    cases ledger with
    | nil => exact absurd rfl hne
    | cons p rest =>
      have h1 : p.1 ∈ ((p :: rest).map Prod.fst) := by simp
      have h2 : p.1 ∈ sortedDates (p :: rest) := (mem_sortedDates _ _).mpr h1
      have h3 : (dget (p :: rest) p.1).isSome := (dget_isSome_iff_mem_keys _ _).mpr h1
      obtain ⟨df, hdf⟩ := Option.isSome_iff_exists.mp h3
      exact List.ne_nil_of_mem (List.mem_filterMap.mpr ⟨p.1, h2, hdf⟩)
  obtain ⟨R, hfold, hRs, hRmem⟩ := foldDFs_index _ hne' hs
  refine ⟨R, hfold, hRs, hRs.imp (fun h => ne_of_lt h), ?_⟩
  intro t
  rw [hRmem t]
  constructor
  · rintro ⟨df, hm, hi⟩
    obtain ⟨d, hd⟩ := mem_of_mem_dfsOf hm
    exact ⟨(d, df), hd, hi⟩
  · rintro ⟨p, hp, hi⟩
    exact ⟨p.2, mem_dfsOf_of_mem hledkeys (show (p.1, p.2) ∈ ledger by simpa using hp), hi⟩

/-- Extract X of the end-to-end scenario (vintage 3). -/
def dfX : DF := ⟨[1, 2, 3], ["v"], [((1, "v"), 50), ((2, "v"), 52), ((3, "v"), 54)]⟩

/-- Extract Y of the end-to-end scenario (vintage 5), overlapping X at 3. -/
def dfY : DF := ⟨[3, 4, 5], ["v"], [((3, "v"), 55), ((4, "v"), 56), ((5, "v"), 57)]⟩

/-- An early extract holding values at 1 and 2 (vintage 2). -/
def dfA2 : DF := ⟨[1, 2], ["v"], [((1, "v"), 10), ((2, "v"), 20)]⟩

/-- A later extract (vintage 4) covering timestamp 1 with a missing value. -/
def dfB2 : DF := ⟨[1, 3, 4], ["v"], [((3, "v"), 30), ((4, "v"), 40)]⟩

theorem overwrite_priority_c1_witness :
    ∃ R, dget (aggreger_donnees [("Cesse", [(3, dfX), (5, dfY)])]) "Cesse" = some R ∧
      R.get 3 "v" = some 55 :=
  overwrite_priority_c1 [("Cesse", [(3, dfX), (5, dfY)])] "Cesse" [(3, dfX), (5, dfY)]
    dfY 5 3 "v" 55 (by decide) (by decide) (by decide) (by decide) (by decide)
    (by decide) (by decide) (by decide)

theorem gap_preservation_c2_witness :
    ∃ R v d' df', dget (aggreger_donnees [("S", [(2, dfA2), (4, dfB2)])]) "S" = some R ∧
      (d', df') ∈ [(2, dfA2), (4, dfB2)] ∧ d' < 4 ∧ df'.get 1 "v" = some v ∧
      R.get 1 "v" = some v :=
  gap_preservation_c2 [("S", [(2, dfA2), (4, dfB2)])] "S" [(2, dfA2), (4, dfB2)]
    dfB2 dfA2 4 2 1 "v" 10 (by decide) (by decide) (by decide) (by decide) (by decide)
    (by decide) (by decide) (by decide) (by decide) (by decide) (by decide)

theorem union_property_c3_witness :
    ∃ R, dget (aggreger_donnees [("S", [(2, dfA2), (4, dfB2)])]) "S" = some R ∧
      R.index.Sorted (· < ·) ∧ R.index.Nodup ∧
      (∀ t, t ∈ R.index ↔ ∃ p ∈ [(2, dfA2), (4, dfB2)], t ∈ ((p.2 : DF)).index) :=
  union_property_c3 [("S", [(2, dfA2), (4, dfB2)])] "S" [(2, dfA2), (4, dfB2)]
    (by decide) (by decide) (by decide) (by decide) (by decide)

/-- Errors the Python runtime can surface in the modelled part of the
program: configparser's NoSectionError and NoOptionError, ValueError from
tuple unpacking, and the unbound-local NameError of an unassigned
dico_data. -/
inductive PyErr where
  | noSection (s : String)
  | noOption (s k : String)
  | valueError
  | nameError
deriving DecidableEq

/-- A duplicate diagnostic: the reported file and the colliding last date. -/
abbrev Diag := String × Nat

/-- The reader output for one file: dict station -> dict last_date -> frame.
lire_fic_salleles / lire_fic_poste_central (external Excel decoding)
produce this shape. -/
abbrev FileData := List (String × Ledger)

/-- The last-date loop of the collector (lines 201-206): an extract whose
last date already exists for the station is skipped with a diagnostic;
otherwise it is added to the station's dict. -/
def collect_dates (fic : String) (nom_station : String) :
    Ledger → TabData × List Diag → TabData × List Diag
  | [], st => st
  | (last_date, df) :: rest, (tab, dg) =>
    let data_station := (dget tab nom_station).getD []
    if last_date ∈ data_station.map Prod.fst then
      collect_dates fic nom_station rest (tab, dg ++ [(fic, last_date)])
    else
      collect_dates fic nom_station rest
        (dset tab nom_station (data_station ++ [(last_date, df)]), dg)

/-- The station loop of the collector (lines 195-206): a new station gets an
empty dict first (lines 196-197), then its read extracts are folded in. -/
def collect_stations (fic : String) :
    FileData → TabData × List Diag → TabData × List Diag
  | [], st => st
  | (nom_station, dicoS) :: rest, (tab, dg) =>
    let tab1 := if nom_station ∈ tab.map Prod.fst then tab else dset tab nom_station []
    collect_stations fic rest (collect_dates fic nom_station dicoS (tab1, dg))

/-- The file loop of lire_fichiers_excel (lines 186-206).  The format test
has no else branch: with an unknown format dico_data stays unassigned
(carried here as an Option threaded across iterations) and its use in the
aggregation loop raises NameError. -/
def lire_loop (readS readP : String → FileData) (format_donnees : String) :
    List String → TabData × List Diag → Option FileData → Except PyErr (TabData × List Diag)
  | [], st, _ => .ok st
  | fic :: rest, st, dico_prev =>
    let dico_opt := if format_donnees = "SALLELES" then some (readS fic)
      else if format_donnees = "POSTE_CENTRAL" then some (readP fic) else dico_prev
    match dico_opt with
    | none => .error .nameError
    | some dico_data =>
        lire_loop readS readP format_donnees rest
          (collect_stations fic dico_data st) (some dico_data)

/-- lire_fichiers_excel (lines 169-208), with the two Excel readers
abstracted as functions from file name to reader output (dico_param is
already closed over) and the glob result abstracted as the file list. -/
def lire_fichiers_excel (readS readP : String → FileData) (liste_fic : List String)
    (format_donnees : String) : Except PyErr (TabData × List Diag) :=
  lire_loop readS readP format_donnees liste_fic ([], []) none

/-- The collector's dict invariant: station keys unique, and last dates
unique within each station's ledger. -/
def TabInv (tab : TabData) : Prop :=
  (tab.map Prod.fst).Nodup ∧ ∀ p ∈ tab, ((p.2 : Ledger).map Prod.fst).Nodup

theorem mem_dset {α β : Type} [DecidableEq α] {l : List (α × β)} {k : α} {v : β}
    {p : α × β} (h : p ∈ dset l k v) : p ∈ l ∨ p = (k, v) := by
  induction l with
  | nil => simpa [dset] using h
  | cons q t ih =>
    obtain ⟨k₀, v₀⟩ := q
    by_cases h₀ : k₀ = k
    · subst h₀
      simp only [dset, if_pos rfl] at h
      rcases List.mem_cons.mp h with h | h
      · exact Or.inr h
      · exact Or.inl (List.mem_cons_of_mem _ h)
    · simp only [dset, if_neg h₀] at h
      rcases List.mem_cons.mp h with h | h
      · exact Or.inl (h ▸ List.mem_cons_self _ _)
      · rcases ih h with h' | h'
        · exact Or.inl (List.mem_cons_of_mem _ h')
        · exact Or.inr h'

theorem TabInv_dset {tab : TabData} {s : String} {l : Ledger} (hinv : TabInv tab)
    (hl : (l.map Prod.fst).Nodup) : TabInv (dset tab s l) := by
  constructor
  · exact dset_nodup_keys _ _ _ hinv.1
  · intro p hp
    rcases mem_dset hp with h | h
    · exact hinv.2 p h
    · subst h; exact hl

theorem collect_dates_inv (fic nom_station : String) :
    ∀ (ledger : Ledger) (st : TabData × List Diag), TabInv st.1 →
      TabInv (collect_dates fic nom_station ledger st).1 := by
  intro ledger
  induction ledger with
  | nil => intro st h; exact h
  | cons p rest ih =>
    obtain ⟨last_date, df⟩ := p
    intro st hinv
    obtain ⟨tab, dg⟩ := st
    by_cases hd : last_date ∈ ((dget tab nom_station).getD []).map Prod.fst
    · simp only [collect_dates, if_pos hd]
      exact ih (tab, _) hinv
    · simp only [collect_dates, if_neg hd]
      have hcur : (((dget tab nom_station).getD []).map Prod.fst).Nodup := by
        cases hg : dget tab nom_station with
        | none => simp
        | some cur =>
          simp only [Option.getD_some]
          exact hinv.2 (nom_station, cur) (dget_mem hg)
      have happ : ((((dget tab nom_station).getD []) ++ [(last_date, df)]).map Prod.fst).Nodup := by
        rw [List.map_append]
        refine List.Nodup.append hcur (by simp) ?_
        intro a ha hb
        simp only [List.map_cons, List.map_nil, List.mem_singleton] at hb
        subst hb
        exact hd ha
      exact ih _ (TabInv_dset hinv happ)

theorem collect_stations_inv (fic : String) :
    ∀ (dico : FileData) (st : TabData × List Diag), TabInv st.1 →
      TabInv (collect_stations fic dico st).1 := by
  intro dico
  induction dico with
  | nil => intro st h; exact h
  | cons p rest ih =>
    obtain ⟨nom_station, dicoS⟩ := p
    intro st hinv
    obtain ⟨tab, dg⟩ := st
    simp only [collect_stations]
    by_cases hs : nom_station ∈ tab.map Prod.fst
    · rw [if_pos hs]
      exact ih _ (collect_dates_inv fic nom_station dicoS (tab, dg) hinv)
    · rw [if_neg hs]
      exact ih _ (collect_dates_inv fic nom_station dicoS _ (TabInv_dset hinv (by simp)))

theorem lire_loop_inv (readS readP : String → FileData) (format_donnees : String) :
    ∀ (files : List String) (st : TabData × List Diag) (dico_prev : Option FileData)
      (tab : TabData) (dg : List Diag),
      TabInv st.1 →
      lire_loop readS readP format_donnees files st dico_prev = .ok (tab, dg) →
      TabInv tab := by
  intro files
  induction files with
  | nil =>
    intro st dico_prev tab dg hinv hok
    simp only [lire_loop] at hok
    cases hok
    exact hinv
  | cons fic rest ih =>
    intro st dico_prev tab dg hinv hok
    simp only [lire_loop] at hok
    cases hdico : (if format_donnees = "SALLELES" then some (readS fic)
        else if format_donnees = "POSTE_CENTRAL" then some (readP fic) else dico_prev) with
    | none => rw [hdico] at hok; exact absurd hok (by simp)
    | some dico_data =>
      rw [hdico] at hok
      exact ih _ _ tab dg (collect_stations_inv fic dico_data st hinv) hok

/-- Extract A of the duplicate scenario: vintage 10, value 1 at t1 = 10. -/
def dfDup1 : DF := ⟨[10], ["v"], [((10, "v"), 1)]⟩

/-- Extract B of the duplicate scenario: same vintage 10, value 2 at t1. -/
def dfDup2 : DF := ⟨[10], ["v"], [((10, "v"), 2)]⟩

/-- A third extract with a fresh vintage 20, read after the collision. -/
def dfDup3 : DF := ⟨[20], ["v"], [((20, "v"), 3)]⟩

/-- Reader of the duplicate scenario: files f1 and f2 yield same-vintage
extracts A then B for station S, file f3 a fresh-vintage extract. -/
def readDup : String → FileData := fun f =>
  if f = "f1" then [("S", [(10, dfDup1)])]
  else if f = "f2" then [("S", [(10, dfDup2)])]
  else [("S", [(20, dfDup3)])]

/-- C4 — Duplicate rejection (first-seen wins): an extract whose last date
already exists in its station's dict is skipped entirely, so last dates
stay unique per station in any successful collector run; and on the
concrete scenario A (vintage 10, value 1) then B (same vintage, value 2)
then a fresh extract, the collector keeps only A, emits exactly one
diagnostic naming file f2 and the colliding vintage, keeps processing
(the fresh extract is retained), and the reconciled series holds A's
value 1 at t1. -/
theorem duplicate_rejection_c4 :
    (∀ (readS readP : String → FileData) (files : List String) (fmt : String)
        (tab : TabData) (dg : List Diag),
        lire_fichiers_excel readS readP files fmt = .ok (tab, dg) →
        (tab.map Prod.fst).Nodup ∧ ∀ p ∈ tab, ((p.2 : Ledger).map Prod.fst).Nodup) ∧
    (lire_fichiers_excel readDup (fun _ => []) ["f1", "f2", "f3"] "SALLELES"
        = .ok ([("S", [(10, dfDup1), (20, dfDup3)])], [("f2", 10)]) ∧
      (dget (aggreger_donnees [("S", [(10, dfDup1), (20, dfDup3)])]) "S").map
          (fun R => R.get 10 "v") = some (some 1)) := by
  constructor
  · intro readS readP files fmt tab dg hok
    exact lire_loop_inv readS readP fmt files ([], []) none tab dg ⟨by simp, by simp⟩ hok
  · constructor
    · rfl
    · decide

theorem duplicate_rejection_c4_witness :
    (([("S", [(10, dfDup1), (20, dfDup3)])] : TabData).map Prod.fst).Nodup ∧
      ∀ p ∈ ([("S", [(10, dfDup1), (20, dfDup3)])] : TabData),
        ((p.2 : Ledger).map Prod.fst).Nodup :=
  duplicate_rejection_c4.1 readDup (fun _ => []) ["f1", "f2", "f3"] "SALLELES"
    [("S", [(10, dfDup1), (20, dfDup3)])] [("f2", 10)] (by rfl)

/-- C9 — Empty input: when the glob matches no files, lire_fichiers_excel
returns the empty mapping with no diagnostics and no error whatever the
FORMAT_DONNEES value is, and the downstream reconciliation of the empty
mapping yields no output series. -/
theorem empty_input_c9 (readS readP : String → FileData) (format_donnees : String) :
    lire_fichiers_excel readS readP [] format_donnees = .ok ([], []) ∧
    aggreger_donnees [] = [] :=
  ⟨rfl, rfl⟩

theorem sortedDates_ne_nil {ledger : Ledger} (h : ledger ≠ []) :
    sortedDates ledger ≠ [] := by
  cases ledger with
  | nil => exact absurd rfl h
  | cons p rest =>
    exact List.ne_nil_of_mem ((mem_sortedDates (p :: rest) p.1).mpr (by simp))

theorem aggreger_inner_keys_mem (s : String) (ledger : Ledger) :
    ∀ (dates : List Nat) (res : List (String × DF)), s ∈ res.map Prod.fst →
      (aggreger_inner s ledger dates res).map Prod.fst = res.map Prod.fst := by
  intro dates
  induction dates with
  | nil => intro res _; rfl
  | cons d rest ih =>
    intro res hs
    cases hd : dget ledger d with
    | none => simp only [aggreger_inner, hd]; exact ih res hs
    | some df =>
      cases hr : dget res s with
      | none =>
        exact absurd ((dget_isSome_iff_mem_keys res s).mpr hs) (by simp [hr])
      | some cur =>
        simp only [aggreger_inner, hd, hr]
        rw [ih _ (by rw [dkeys_dset_mem _ _ _ hs]; exact hs), dkeys_dset_mem _ _ _ hs]

theorem aggreger_inner_keys_fresh (s : String) (ledger : Ledger)
    (dates : List Nat) (res : List (String × DF)) (hs : s ∉ res.map Prod.fst)
    (hne : dates ≠ []) (hdates : ∀ d ∈ dates, d ∈ ledger.map Prod.fst) :
    (aggreger_inner s ledger dates res).map Prod.fst = res.map Prod.fst ++ [s] := by
  cases dates with
  | nil => exact absurd rfl hne
  | cons d rest =>
    obtain ⟨df, hd⟩ := Option.isSome_iff_exists.mp
      ((dget_isSome_iff_mem_keys ledger d).mpr (hdates d (by simp)))
    have hr : dget res s = none := by
      cases hg : dget res s with
      | none => rfl
      | some cur =>
        exact absurd ((dget_isSome_iff_mem_keys res s).mp (by simp [hg])) hs
    simp only [aggreger_inner, hd, hr]
    have hkeys' : (dset res s df).map Prod.fst = res.map Prod.fst ++ [s] :=
      dkeys_dset_fresh res s df hs
    rw [aggreger_inner_keys_mem s ledger rest _ (by rw [hkeys']; simp), hkeys']

theorem aggreger_outer_keys :
    ∀ (tab : TabData) (res : List (String × DF)),
      (∀ p ∈ tab, (p.2 : Ledger) ≠ []) →
      (∀ s, s ∈ tab.map Prod.fst → s ∉ res.map Prod.fst) →
      (tab.map Prod.fst).Nodup →
      (aggreger_outer tab res).map Prod.fst = res.map Prod.fst ++ tab.map Prod.fst := by
  intro tab
  induction tab with
  | nil => intro res _ _ _; simp [aggreger_outer]
  | cons p rest ih =>
    obtain ⟨s, ledger⟩ := p
    intro res hne hdisj hnd
    simp only [aggreger_outer]
    have hled : ledger ≠ [] := hne (s, ledger) (by simp)
    have hfresh : s ∉ res.map Prod.fst := hdisj s (by simp)
    have hinner := aggreger_inner_keys_fresh s ledger (sortedDates ledger) res hfresh
      (sortedDates_ne_nil hled) (fun d hd => (mem_sortedDates ledger d).mp hd)
    simp only [List.map_cons, List.nodup_cons] at hnd
    rw [ih _ (fun p hp => hne p (List.mem_cons_of_mem _ hp)) ?_ hnd.2, hinner]
    · simp
    · intro s' hs' hmem
      rw [hinner] at hmem
      rcases List.mem_append.mp hmem with h | h
      · exact hdisj s' (by simp [hs']) h
      · simp only [List.mem_singleton] at h
        subst h
        exact hnd.1 hs'

/-- C10 counterexample: aggreger_donnees drops an entity whose ledger is
empty, so the output's entity keys can differ from the input's. -/
theorem entity_domain_c10_counterexample :
    (aggreger_donnees [("A", ([] : Ledger))]).map Prod.fst
      ≠ ([("A", ([] : Ledger))] : TabData).map Prod.fst := by
  decide

/-- C10 amended — entity-domain preservation for nonempty ledgers: when
every entity of the input mapping has at least one extract (as every
collector-built ledger does), aggreger_donnees returns exactly the input's
entity keys, in order; an entity with an empty ledger would be dropped. -/
theorem entity_domain_c10_amended (tab : TabData)
    (hkeys : (tab.map Prod.fst).Nodup)
    (hne : ∀ p ∈ tab, (p.2 : Ledger) ≠ []) :
    (aggreger_donnees tab).map Prod.fst = tab.map Prod.fst := by
  unfold aggreger_donnees
  have h := aggreger_outer_keys tab [] hne (by simp) hkeys
  simpa using h

theorem entity_domain_c10_witness :
    (aggreger_donnees [("S", [(2, dfA2), (4, dfB2)])]).map Prod.fst
      = ([("S", [(2, dfA2), (4, dfB2)])] : TabData).map Prod.fst :=
  entity_domain_c10_amended _ (by decide) (by decide)

/-- Python str.split(sep) for a one-character separator: split at every
occurrence; no occurrence yields the whole string, an empty string yields
one empty part. -/
def splitOnChar (c : Char) : List Char → List (List Char)
  | [] => [[]]
  | x :: xs =>
    if x = c then [] :: splitOnChar c xs
    else
      match splitOnChar c xs with
      | [] => [[x]]
      | h :: t => (x :: h) :: t

theorem splitOnChar_ne_nil (c : Char) (l : List Char) : splitOnChar c l ≠ [] := by
  induction l with
  | nil => simp [splitOnChar]
  | cons x xs ih =>
    by_cases hx : x = c
    · simp [splitOnChar, hx]
    · cases hsp : splitOnChar c xs with
      | nil => exact absurd hsp ih
      | cons hh tt => simp [splitOnChar, hx, hsp]

theorem length_splitOnChar (c : Char) (l : List Char) :
    (splitOnChar c l).length = l.count c + 1 := by
  induction l with
  | nil => simp [splitOnChar]
  | cons x xs ih =>
    by_cases hx : x = c
    · subst hx
      simp [splitOnChar, List.count_cons, ih]
    · cases hsp : splitOnChar c xs with
      | nil => exact absurd hsp (splitOnChar_ne_nil c xs)
      | cons hh tt =>
        rw [hsp] at ih
        simp only [List.length_cons] at ih
        simp [splitOnChar, hx, hsp, List.count_cons]
        omega

/-- Python str.strip(): drop whitespace at both ends. -/
def trimL (l : List Char) : List Char :=
  ((l.dropWhile Char.isWhitespace).reverse.dropWhile Char.isWhitespace).reverse

/-- The line loop of _extraire_col_params (lines 68-75): each line is
unpacked as k, v = ligne.split(chr 58); a line yielding any number of parts
other than two raises ValueError; both parts are stripped and v is appended
to the k-keyed list of the result dict. -/
def extraire_lines :
    List (List Char) → List (List Char × List (List Char)) →
      Except PyErr (List (List Char × List (List Char)))
  | [], resultat => .ok resultat
  | ligne :: rest, resultat =>
    match splitOnChar ':' ligne with
    | [k0, v0] =>
      let k := trimL k0
      let v := trimL v0
      let cur := (dget resultat k).getD []
      extraire_lines rest (dset resultat k (cur ++ [v]))
    | _ => .error .valueError

/-- _extraire_col_params (lines 51-77): parse the multi-line extraction
specification into the dict entity -> list of column identifiers. -/
def extraire_col_params (str_colonnes : List Char) :
    Except PyErr (List (List Char × List (List Char))) :=
  extraire_lines (splitOnChar '\n' str_colonnes) []

/-- Whether an Except value is a success. -/
def isOkE {ε α : Type} : Except ε α → Bool
  | .ok _ => true
  | .error _ => false

theorem extraire_lines_ok (lines : List (List Char)) :
    ∀ resultat, isOkE (extraire_lines lines resultat) = true ↔
      ∀ l ∈ lines, (splitOnChar ':' l).length = 2 := by
  induction lines with
  | nil => intro resultat; simp [extraire_lines, isOkE]
  | cons ligne rest ih =>
    intro resultat
    rcases hsp : splitOnChar ':' ligne with _ | ⟨k0, _ | ⟨v0, _ | ⟨x, t⟩⟩⟩
    · exact absurd hsp (splitOnChar_ne_nil ':' ligne)
    · simp only [extraire_lines, hsp, isOkE]
      constructor
      · intro h; exact absurd h (by simp)
      · intro h
        have := h ligne (by simp)
        rw [hsp] at this
        simp at this
    · simp only [extraire_lines, hsp, ih]
      constructor
      · intro h l hl
        rcases List.mem_cons.mp hl with hl | hl
        · subst hl; rw [hsp]; rfl
        · exact h l hl
      · intro h l hl
        exact h l (List.mem_cons_of_mem _ hl)
    · simp only [extraire_lines, hsp, isOkE]
      constructor
      · intro h; exact absurd h (by simp)
      · intro h
        have := h ligne (by simp)
        rw [hsp] at this
        simp at this

/-- C8 — Strict one-separator parsing: _extraire_col_params succeeds exactly
when every line of its input has exactly one separator character; a line
with no separator, an empty interior line, and a line whose right-hand part
holds a further separator each raise an error. -/
theorem strict_parse_c8 :
    (∀ s : List Char, isOkE (extraire_col_params s) = true ↔
      ∀ ligne ∈ splitOnChar '\n' s, ligne.count ':' = 1) ∧
    isOkE (extraire_col_params ("Cesse : CESSE.DEBIT".toList)) = true ∧
    isOkE (extraire_col_params ("Cesse CESSE.DEBIT".toList)) = false ∧
    isOkE (extraire_col_params ("a : b\n\nc : d".toList)) = false ∧
    isOkE (extraire_col_params ("a : b:c".toList)) = false := by
  refine ⟨?_, by decide, by decide, by decide, by decide⟩
  intro s
  unfold extraire_col_params
  rw [extraire_lines_ok]
  constructor
  · intro h ligne hl
    have := h ligne hl
    rw [length_splitOnChar] at this
    omega
  · intro h ligne hl
    have := h ligne hl
    rw [length_splitOnChar]
    omega

/-- The parsed .ini file: sections, each a dict of options. -/
abbrev Config := List (String × List (String × String))

/-- configparser's RawConfigParser.get: NoSectionError when the section is
absent, NoOptionError when the option is absent from the section. -/
def config_get (config : Config) (section_name key : String) : Except PyErr String :=
  match dget config section_name with
  | none => .error (.noSection section_name)
  | some opts =>
    match dget opts key with
    | none => .error (.noOption section_name key)
    | some v => .ok v

/-- The dict returned by get_params (lines 21-47). -/
structure Params where
  format_donnees : String
  fichiers_input : String
  resultats : String
  col_params : List (List Char × List (List Char))
deriving DecidableEq

/-- lire_param_format (lines 79-99): read col_params from the section named
after the data format and parse it. -/
def lire_param_format (config : Config) (nom_section : String) :
    Except PyErr (List (List Char × List (List Char))) :=
  match config_get config nom_section "col_params" with
  | .error e => .error e
  | .ok str_colonnes => extraire_col_params (trimL str_colonnes.toList)

/-- get_params (lines 21-47): read the three params-section options, then
the format-specific section named by the (stripped) FORMAT_DONNEES value.
Exceptions propagate unchanged, as in Python. -/
def get_params (config : Config) : Except PyErr Params :=
  match config_get config "params" "FORMAT_DONNEES" with
  | .error e => .error e
  | .ok fmt_raw =>
    let format_donnees := (trimL fmt_raw.toList).asString
    match config_get config "params" "FICHIERS_INPUT" with
    | .error e => .error e
    | .ok fichiers_input =>
      match config_get config "params" "RESULTATS" with
      | .error e => .error e
      | .ok resultats =>
        match lire_param_format config format_donnees with
        | .error e => .error e
        | .ok col_params => .ok ⟨format_donnees, fichiers_input, resultats, col_params⟩

/-- The pipeline of main (lines 271-291) up to the point where output files
would be written: read the parameters, collect all files matched by the
glob (abstracted as a function from the pattern to the file list), then
reconcile.  Writing the results is external output. -/
def run_pipeline (config : Config) (globf : String → List String)
    (readS readP : String → FileData) :
    Except PyErr (TabData × List Diag × List (String × DF)) :=
  match get_params config with
  | .error e => .error e
  | .ok params =>
    match lire_fichiers_excel readS readP (globf params.fichiers_input)
        params.format_donnees with
    | .error e => .error e
    | .ok (tab_data, diags) => .ok (tab_data, diags, aggreger_donnees tab_data)

/-- A configuration whose FORMAT_DONNEES is the unknown value FOO but which
still has a FOO section holding a well-formed col_params. -/
def cfgUnknownFmt : Config :=
  [("params", [("FORMAT_DONNEES", "FOO"), ("FICHIERS_INPUT", "*.xlsx"),
    ("RESULTATS", "out")]),
   ("FOO", [("col_params", "A : a")])]

/-- C6 counterexample: with the unknown format FOO (backed by a FOO section)
and a glob matching no files, the run completes without any error — it does
not abort with a configuration error before reading files. -/
theorem unknown_format_c6_counterexample :
    run_pipeline cfgUnknownFmt (fun _ => []) (fun _ => []) (fun _ => [])
      = .ok ([], [], []) := by
  rfl

/-- C6 amended — Unknown-format behaviour: get_params fails (before any
file is read) only when the configuration has no section named after the
FORMAT_DONNEES value, since it reads that section's col_params; when such
a section exists no format validation occurs, and lire_fichiers_excel with
an unknown format fails with a NameError on the first file (the unassigned
dico_data) when at least one file matches, and silently returns the empty
result when none does. -/
theorem unknown_format_c6_amended :
    (∀ (config : Config) (p : Params), get_params config = .ok p →
        ∃ opts, dget config p.format_donnees = some opts) ∧
    (∀ (readS readP : String → FileData) (fic : String) (rest : List String)
        (fmt : String), fmt ≠ "SALLELES" → fmt ≠ "POSTE_CENTRAL" →
        lire_fichiers_excel readS readP (fic :: rest) fmt = .error .nameError) ∧
    (∀ (readS readP : String → FileData) (fmt : String),
        lire_fichiers_excel readS readP [] fmt = .ok ([], [])) := by
  refine ⟨?_, ?_, fun _ _ _ => rfl⟩
  · intro config p h
    unfold get_params at h
    cases h1 : config_get config "params" "FORMAT_DONNEES" with
    | error e => rw [h1] at h; exact absurd h (by simp)
    | ok fmt_raw =>
      rw [h1] at h
      simp only at h
      cases h2 : config_get config "params" "FICHIERS_INPUT" with
      | error e => rw [h2] at h; exact absurd h (by simp)
      | ok fichiers_input =>
        rw [h2] at h
        simp only at h
        cases h3 : config_get config "params" "RESULTATS" with
        | error e => rw [h3] at h; exact absurd h (by simp)
        | ok resultats =>
          rw [h3] at h
          simp only at h
          cases h4 : lire_param_format config ((trimL fmt_raw.toList).asString) with
          | error e => rw [h4] at h; exact absurd h (by simp)
          | ok col_params =>
            rw [h4] at h
            simp only [Except.ok.injEq] at h
            subst h
            unfold lire_param_format at h4
            cases h5 : config_get config ((trimL fmt_raw.toList).asString) "col_params" with
            | error e => rw [h5] at h4; exact absurd h4 (by simp)
            | ok str_colonnes =>
              unfold config_get at h5
              cases h6 : dget config ((trimL fmt_raw.toList).asString) with
              | none => rw [h6] at h5; exact absurd h5 (by simp)
              | some opts => exact ⟨opts, rfl⟩
  · intro readS readP fic rest fmt h1 h2
    unfold lire_fichiers_excel lire_loop
    rw [if_neg h1, if_neg h2]

/-- A well-formed configuration for the known SALLELES format. -/
def cfgSalleles : Config :=
  [("params", [("FORMAT_DONNEES", "SALLELES"), ("FICHIERS_INPUT", "*.xlsx"),
    ("RESULTATS", "out")]),
   ("SALLELES", [("col_params", "Cesse : CESSE.DEBIT")])]

/-- The parameters read from cfgSalleles. -/
def paramsSalleles : Params :=
  ⟨"SALLELES", "*.xlsx", "out", [("Cesse".toList, ["CESSE.DEBIT".toList])]⟩

theorem unknown_format_c6_witness :
    (∃ opts, dget cfgSalleles paramsSalleles.format_donnees = some opts) ∧
    lire_fichiers_excel (fun _ => []) (fun _ => []) ["f1"] "FOO" = .error .nameError ∧
    lire_fichiers_excel (fun _ => []) (fun _ => []) ([] : List String) "FOO" = .ok ([], []) :=
  ⟨unknown_format_c6_amended.1 cfgSalleles paramsSalleles (by rfl),
   unknown_format_c6_amended.2.1 (fun _ => []) (fun _ => []) "f1" [] "FOO"
     (by decide) (by decide),
   unknown_format_c6_amended.2.2 (fun _ => []) (fun _ => []) "FOO"⟩

/-- First-some choice on optional frames (Python's keep-existing-value
pattern of the collector). -/
def oorElse (a b : Option DF) : Option DF :=
  match a with
  | some x => some x
  | none => b

theorem oorElse_none_right (a : Option DF) : oorElse a none = a := by
  cases a <;> rfl

theorem oorElse_assoc (a b c : Option DF) :
    oorElse (oorElse a b) c = oorElse a (oorElse b c) := by
  cases a <;> rfl

/-- Two-level lookup tab_data[station][last_date]. -/
def lookup2 (tab : TabData) (s : String) (v : Nat) : Option DF :=
  match dget tab s with
  | none => none
  | some led => dget led v

/-- The (station, last date, frame) entries of one file's reader output, in
the collector's processing order. -/
def entriesOfFile (dico : FileData) : List (String × Nat × DF) :=
  dico.flatMap (fun p => p.2.map (fun q => (p.1, q.1, q.2)))

/-- The entries of all files, in file-list order. -/
def entriesOfFiles (read : String → FileData) (files : List String) :
    List (String × Nat × DF) :=
  files.flatMap (fun f => entriesOfFile (read f))

/-- The first entry of the list for the given station and last date. -/
def findEntry (es : List (String × Nat × DF)) (s : String) (v : Nat) : Option DF :=
  (es.find? (fun e => decide (e.1 = s ∧ e.2.1 = v))).map (fun e => e.2.2)

theorem findEntry_append (es₁ es₂ : List (String × Nat × DF)) (s : String) (v : Nat) :
    findEntry (es₁ ++ es₂) s v = oorElse (findEntry es₁ s v) (findEntry es₂ s v) := by
  unfold findEntry
  rw [List.find?_append]
  cases h : es₁.find? (fun e => decide (e.1 = s ∧ e.2.1 = v)) <;> simp [Option.or, oorElse, h]

theorem findEntry_file_self (s₀ : String) (led : Ledger) (v : Nat) :
    findEntry (led.map (fun q => (s₀, q.1, q.2))) s₀ v
      = ((led.find? (fun q => decide (q.1 = v))).map Prod.snd : Option DF) := by
  induction led with
  | nil => rfl
  | cons q t ih =>
    obtain ⟨d, df⟩ := q
    by_cases hv : d = v
    · subst hv
      simp [findEntry, List.find?_cons_of_pos]
    · unfold findEntry at *
      rw [List.map_cons, List.find?_cons_of_neg _ (by simp [hv]),
        List.find?_cons_of_neg _ (by simp [hv])]
      exact ih

theorem findEntry_file_ne (s₀ s : String) (hne : s ≠ s₀) (led : Ledger) (v : Nat) :
    findEntry (led.map (fun q => (s₀, q.1, q.2))) s v = none := by
  induction led with
  | nil => rfl
  | cons q t ih =>
    unfold findEntry at *
    rw [List.map_cons, List.find?_cons_of_neg _ (by simp [Ne.symm hne])]
    exact ih

theorem lookup2_dset_ledger (tab : TabData) (s : String) (l : Ledger) (v : Nat) :
    lookup2 (dset tab s l) s v = dget l v := by
  unfold lookup2
  rw [dget_dset_self]

theorem collect_dates_lookup (fic nom_station : String) :
    ∀ (led : Ledger) (tab : TabData) (dg : List Diag),
      nom_station ∈ tab.map Prod.fst → ∀ v,
      lookup2 (collect_dates fic nom_station led (tab, dg)).1 nom_station v
        = oorElse (lookup2 tab nom_station v)
            (((led.find? (fun q => decide (q.1 = v))).map Prod.snd : Option DF)) := by
  intro led
  induction led with
  | nil =>
    intro tab dg hs v
    simp only [collect_dates, List.find?_nil, Option.map_none']
    rw [oorElse_none_right]
  | cons q rest ih =>
    obtain ⟨d, df⟩ := q
    intro tab dg hs v
    obtain ⟨cur, hcur⟩ := Option.isSome_iff_exists.mp
      ((dget_isSome_iff_mem_keys tab nom_station).mpr hs)
    have hdata : (dget tab nom_station).getD [] = cur := by rw [hcur]; rfl
    have hl2 : ∀ w, lookup2 tab nom_station w = dget cur w := by
      intro w; unfold lookup2; rw [hcur]
    by_cases hd : d ∈ cur.map Prod.fst
    · have hd' : d ∈ ((dget tab nom_station).getD []).map Prod.fst := by rw [hdata]; exact hd
      simp only [collect_dates, if_pos hd']
      rw [ih tab _ hs v]
      by_cases hv : d = v
      · subst hv
        obtain ⟨w, hw⟩ := Option.isSome_iff_exists.mp ((dget_isSome_iff_mem_keys cur d).mpr hd)
        rw [List.find?_cons_of_pos _ (by simp), hl2, hw]
        rfl
      · rw [List.find?_cons_of_neg _ (by simp [hv])]
    · have hd' : d ∉ ((dget tab nom_station).getD []).map Prod.fst := by rw [hdata]; exact hd
      simp only [collect_dates, if_neg hd']
      rw [hdata]
      have hs' : nom_station ∈ (dset tab nom_station (cur ++ [(d, df)])).map Prod.fst := by
        rw [dkeys_dset_mem _ _ _ hs]; exact hs
      rw [ih _ _ hs' v]
      by_cases hv : d = v
      · subst hv
        have h0 : lookup2 tab nom_station d = none := by
          rw [hl2]
          cases hg : dget cur d with
          | none => rfl
          | some w =>
            exact absurd ((dget_isSome_iff_mem_keys cur d).mp (by simp [hg])) hd
        rw [lookup2_dset_ledger, dget_append, h0, List.find?_cons_of_pos _ (by simp)]
        cases hg : dget cur d with
        | none => simp [dget, oorElse]
        | some w =>
          exact absurd ((dget_isSome_iff_mem_keys cur d).mp (by simp [hg])) hd
      · rw [lookup2_dset_ledger, dget_append, List.find?_cons_of_neg _ (by simp [hv]), hl2]
        cases hg : dget cur v with
        | none => simp [dget, hv, oorElse]
        | some w => rfl

theorem collect_dates_lookup_ne (fic nom_station s : String) (hne : s ≠ nom_station) :
    ∀ (led : Ledger) (tab : TabData) (dg : List Diag) (v : Nat),
      lookup2 (collect_dates fic nom_station led (tab, dg)).1 s v = lookup2 tab s v := by
  intro led
  induction led with
  | nil => intro tab dg v; rfl
  | cons q rest ih =>
    obtain ⟨d, df⟩ := q
    intro tab dg v
    by_cases hd : d ∈ ((dget tab nom_station).getD []).map Prod.fst
    · simp only [collect_dates, if_pos hd]
      exact ih tab _ v
    · simp only [collect_dates, if_neg hd]
      rw [ih _ _ v]
      unfold lookup2
      rw [dget_dset_ne _ _ _ _ (Ne.symm hne)]

theorem collect_dates_keys (fic nom_station : String) :
    ∀ (led : Ledger) (tab : TabData) (dg : List Diag),
      nom_station ∈ tab.map Prod.fst →
      (collect_dates fic nom_station led (tab, dg)).1.map Prod.fst = tab.map Prod.fst := by
  intro led
  induction led with
  | nil => intro tab dg _; rfl
  | cons q rest ih =>
    obtain ⟨d, df⟩ := q
    intro tab dg hs
    by_cases hd : d ∈ ((dget tab nom_station).getD []).map Prod.fst
    · simp only [collect_dates, if_pos hd]
      exact ih tab _ hs
    · simp only [collect_dates, if_neg hd]
      rw [ih _ _ (by rw [dkeys_dset_mem _ _ _ hs]; exact hs), dkeys_dset_mem _ _ _ hs]

theorem collect_stations_lookup (fic : String) :
    ∀ (dico : FileData) (st : TabData × List Diag) (s : String) (v : Nat),
      lookup2 (collect_stations fic dico st).1 s v
        = oorElse (lookup2 st.1 s v) (findEntry (entriesOfFile dico) s v) := by
  intro dico
  induction dico with
  | nil =>
    intro st s v
    show lookup2 st.1 s v = _
    rw [show findEntry (entriesOfFile []) s v = none from rfl, oorElse_none_right]
  | cons p rest ih =>
    obtain ⟨s₀, led₀⟩ := p
    intro st s v
    obtain ⟨tab, dg⟩ := st
    simp only [collect_stations]
    have h1 : ∀ s' v', lookup2 (if s₀ ∈ tab.map Prod.fst then tab else dset tab s₀ []) s' v'
        = lookup2 tab s' v' := by
      intro s' v'
      by_cases hm : s₀ ∈ tab.map Prod.fst
      · rw [if_pos hm]
      · rw [if_neg hm]
        by_cases hs' : s' = s₀
        · subst hs'
          unfold lookup2
          rw [dget_dset_self]
          cases hg : dget tab s' with
          | none => simp [dget]
          | some cur =>
            exact absurd ((dget_isSome_iff_mem_keys tab s').mp (by simp [hg])) hm
        · unfold lookup2
          rw [dget_dset_ne _ _ _ _ (Ne.symm hs')]
    have hs₀ : s₀ ∈ (if s₀ ∈ tab.map Prod.fst then tab else dset tab s₀ []).map Prod.fst := by
      by_cases hm : s₀ ∈ tab.map Prod.fst
      · rw [if_pos hm]; exact hm
      · rw [if_neg hm, dkeys_dset_fresh _ _ _ hm]; simp
    have hent : entriesOfFile ((s₀, led₀) :: rest)
        = led₀.map (fun q => (s₀, q.1, q.2)) ++ entriesOfFile rest := by
      simp [entriesOfFile]
    rw [hent, findEntry_append, ih _ s v]
    by_cases hs : s = s₀
    · subst hs
      rw [collect_dates_lookup fic s led₀ _ dg hs₀ v, h1, findEntry_file_self, oorElse_assoc]
    · rw [collect_dates_lookup_ne fic s₀ s hs led₀ _ dg v, h1,
        findEntry_file_ne s₀ s hs led₀ v]
      rfl

theorem collect_stations_keys (fic : String) :
    ∀ (dico : FileData) (st : TabData × List Diag) (s : String),
      s ∈ (collect_stations fic dico st).1.map Prod.fst ↔
        s ∈ st.1.map Prod.fst ∨ s ∈ dico.map Prod.fst := by
  intro dico
  induction dico with
  | nil => intro st s; simp [collect_stations]
  | cons p rest ih =>
    obtain ⟨s₀, led₀⟩ := p
    intro st s
    obtain ⟨tab, dg⟩ := st
    simp only [collect_stations]
    have hs₀ : s₀ ∈ (if s₀ ∈ tab.map Prod.fst then tab else dset tab s₀ []).map Prod.fst := by
      by_cases hm : s₀ ∈ tab.map Prod.fst
      · rw [if_pos hm]; exact hm
      · rw [if_neg hm, dkeys_dset_fresh _ _ _ hm]; simp
    have hkeys1 : ∀ s', s' ∈ (if s₀ ∈ tab.map Prod.fst then tab
        else dset tab s₀ []).map Prod.fst ↔ s' ∈ tab.map Prod.fst ∨ s' = s₀ := by
      intro s'
      by_cases hm : s₀ ∈ tab.map Prod.fst
      · rw [if_pos hm]
        constructor
        · exact Or.inl
        · rintro (h | h)
          · exact h
          · subst h; exact hm
      · rw [if_neg hm, dkeys_dset_fresh _ _ _ hm]
        simp [List.mem_append]
    rw [ih _ s, collect_dates_keys fic s₀ led₀ _ dg hs₀, hkeys1]
    simp only [List.map_cons, List.mem_cons]
    tauto

/-- The Source Reader variant selected by the format (line 188 / 192). -/
def activeRead (readS readP : String → FileData) (fmt : String) : String → FileData :=
  if fmt = "SALLELES" then readS else readP

theorem lire_loop_spec (readS readP : String → FileData) (fmt : String)
    (hfmt : fmt = "SALLELES" ∨ fmt = "POSTE_CENTRAL") :
    ∀ (files : List String) (st : TabData × List Diag) (dic : Option FileData),
      ∃ tab dg, lire_loop readS readP fmt files st dic = .ok (tab, dg) ∧
        (∀ s v, lookup2 tab s v
          = oorElse (lookup2 st.1 s v)
              (findEntry (entriesOfFiles (activeRead readS readP fmt) files) s v)) ∧
        (∀ s, s ∈ tab.map Prod.fst ↔
          s ∈ st.1.map Prod.fst ∨
            ∃ f ∈ files, s ∈ ((activeRead readS readP fmt f).map Prod.fst)) := by
  intro files
  induction files with
  | nil =>
    intro st dic
    refine ⟨st.1, st.2, rfl, ?_, ?_⟩
    · intro s v
      rw [show findEntry (entriesOfFiles (activeRead readS readP fmt) []) s v = none from rfl,
        oorElse_none_right]
    · intro s; simp
  | cons fic rest ih =>
    intro st dic
    have hdico : (if fmt = "SALLELES" then some (readS fic)
        else if fmt = "POSTE_CENTRAL" then some (readP fic) else dic)
        = some (activeRead readS readP fmt fic) := by
      rcases hfmt with h | h <;> subst h <;> rfl
    obtain ⟨tab, dg, hok, hlk, hks⟩ :=
      ih (collect_stations fic (activeRead readS readP fmt fic) st)
        (some (activeRead readS readP fmt fic))
    refine ⟨tab, dg, ?_, ?_, ?_⟩
    · simp only [lire_loop]
      rw [hdico]
      exact hok
    · intro s v
      rw [hlk s v, collect_stations_lookup fic _ _ s v, oorElse_assoc,
        show entriesOfFiles (activeRead readS readP fmt) (fic :: rest)
            = entriesOfFile (activeRead readS readP fmt fic)
              ++ entriesOfFiles (activeRead readS readP fmt) rest from by
          simp [entriesOfFiles],
        findEntry_append]
    · intro s
      rw [hks s, collect_stations_keys fic _ _ s]
      simp only [List.mem_cons]
      constructor
      · rintro ((h | h) | ⟨f, hf, h⟩)
        · exact Or.inl h
        · exact Or.inr ⟨fic, Or.inl rfl, h⟩
        · exact Or.inr ⟨f, Or.inr hf, h⟩
      · rintro (h | ⟨f, hf | hf, h⟩)
        · exact Or.inl (Or.inl h)
        · subst hf; exact Or.inl (Or.inr h)
        · exact Or.inr ⟨f, hf, h⟩

theorem stationFold_ext (l l' : Ledger) (h2 : ∀ v, dget l v = dget l' v) :
    ∀ (dates : List Nat) (acc : Option DF),
      stationFold l dates acc = stationFold l' dates acc := by
  intro dates
  induction dates with
  | nil => intro acc; rfl
  | cons d rest ih =>
    intro acc
    simp only [stationFold, h2 d]
    exact ih _

/-- The per-station fold depends only on the ledger's key-value mapping. -/
theorem aggregerStation_ext (l l' : Ledger)
    (h1 : (l.map Prod.fst).Nodup) (h1' : (l'.map Prod.fst).Nodup)
    (h2 : ∀ v, dget l v = dget l' v) :
    aggregerStation l = aggregerStation l' := by
  have hmem : ∀ v, v ∈ l.map Prod.fst ↔ v ∈ l'.map Prod.fst := by
    intro v
    rw [← dget_isSome_iff_mem_keys, ← dget_isSome_iff_mem_keys, h2 v]
  have hdates : sortedDates l = sortedDates l' := by
    unfold sortedDates
    rw [List.dedup_eq_self.mpr h1, List.dedup_eq_self.mpr h1']
    have hp1 : List.Perm (List.insertionSort (· ≤ ·) (l.map Prod.fst)) (l.map Prod.fst) :=
      List.perm_insertionSort _ _
    have hp2 : List.Perm (l.map Prod.fst) (l'.map Prod.fst) :=
      (List.perm_ext_iff_of_nodup h1 h1').mpr hmem
    have hp3 : List.Perm (l'.map Prod.fst) (List.insertionSort (· ≤ ·) (l'.map Prod.fst)) :=
      (List.perm_insertionSort _ _).symm
    exact List.eq_of_perm_of_sorted ((hp1.trans hp2).trans hp3)
      (List.sorted_insertionSort _ _) (List.sorted_insertionSort _ _)
  unfold aggregerStation
  rw [hdates, stationFold_ext l l' h2 _ _]

/-- find? is permutation-invariant when at most one element satisfies the
predicate. -/
theorem find?_perm_of_countP_le_one {α : Type} (p : α → Bool) {l l' : List α}
    (hperm : l.Perm l') (hcount : l.countP p ≤ 1) : l.find? p = l'.find? p := by
  cases hf : l.find? p with
  | none =>
    symm
    rw [List.find?_eq_none]
    intro a ha
    exact (List.find?_eq_none.mp hf) a (hperm.symm.subset ha)
  | some a =>
    have hpa : p a = true := List.find?_some hf
    have hal : a ∈ l := List.mem_of_find?_eq_some hf
    cases hf' : l'.find? p with
    | none =>
      exact absurd hpa ((List.find?_eq_none.mp hf') a (hperm.subset hal))
    | some b =>
      have hpb : p b = true := List.find?_some hf'
      have hbl : b ∈ l := hperm.symm.subset (List.mem_of_find?_eq_some hf')
      have hab : a = b := by
        by_contra hne
        have hfa : a ∈ l.filter p := List.mem_filter.mpr ⟨hal, hpa⟩
        have hfb : b ∈ l.filter p := List.mem_filter.mpr ⟨hbl, hpb⟩
        rw [List.countP_eq_length_filter] at hcount
        obtain ⟨u, w, hsplit⟩ := List.append_of_mem hfa
        rw [hsplit] at hfb hcount
        simp only [List.length_append, List.length_cons] at hcount
        rcases List.mem_append.mp hfb with hb' | hb'
        · have h1 : 1 ≤ u.length := List.length_pos.mpr (List.ne_nil_of_mem hb')
          omega
        · rcases List.mem_cons.mp hb' with hb'' | hb''
          · exact hne hb''.symm
          · have h1 : 1 ≤ w.length := List.length_pos.mpr (List.ne_nil_of_mem hb'')
            omega
      rw [hab]

/-- C5 amended — Order independence without vintage collisions: when no
(entity, vintage) pair is produced by more than one extract across the
files, processing any permutation of the file list yields the same
entity-keyed ledger mapping (same stations, same vintage-to-extract
lookups; only diagnostics may differ) and the same reconciled series. -/
theorem order_independence_c5_amended
    (readS readP : String → FileData) (files files' : List String) (fmt : String)
    (hfmt : fmt = "SALLELES" ∨ fmt = "POSTE_CENTRAL")
    (hperm : files.Perm files')
    (huniq : ∀ s v, (entriesOfFiles (activeRead readS readP fmt) files).countP
        (fun e => decide (e.1 = s ∧ e.2.1 = v)) ≤ 1) :
    ∃ tab dg tab' dg',
      lire_fichiers_excel readS readP files fmt = .ok (tab, dg) ∧
      lire_fichiers_excel readS readP files' fmt = .ok (tab', dg') ∧
      (∀ s, s ∈ tab.map Prod.fst ↔ s ∈ tab'.map Prod.fst) ∧
      (∀ s v, lookup2 tab s v = lookup2 tab' s v) ∧
      (∀ s, dget (aggreger_donnees tab) s = dget (aggreger_donnees tab') s) := by
  obtain ⟨tab, dg, hok, hlk, hks⟩ := lire_loop_spec readS readP fmt hfmt files ([], []) none
  obtain ⟨tab', dg', hok', hlk', hks'⟩ :=
    lire_loop_spec readS readP fmt hfmt files' ([], []) none
  have heperm : (entriesOfFiles (activeRead readS readP fmt) files).Perm
      (entriesOfFiles (activeRead readS readP fmt) files') := by
    unfold entriesOfFiles
    exact hperm.flatMap_right _
  have hfe : ∀ s v, findEntry (entriesOfFiles (activeRead readS readP fmt) files) s v
      = findEntry (entriesOfFiles (activeRead readS readP fmt) files') s v := by
    intro s v
    unfold findEntry
    rw [find?_perm_of_countP_le_one _ heperm (huniq s v)]
  have hlkeq : ∀ s v, lookup2 tab s v = lookup2 tab' s v := by
    intro s v
    rw [hlk s v, hlk' s v, hfe s v]
  have hkeq : ∀ s, s ∈ tab.map Prod.fst ↔ s ∈ tab'.map Prod.fst := by
    intro s
    rw [hks s, hks' s]
    constructor
    · rintro (h | ⟨f, hf, h⟩)
      · exact Or.inl h
      · exact Or.inr ⟨f, hperm.subset hf, h⟩
    · rintro (h | ⟨f, hf, h⟩)
      · exact Or.inl h
      · exact Or.inr ⟨f, hperm.symm.subset hf, h⟩
  have hinv : TabInv tab :=
    lire_loop_inv readS readP fmt files ([], []) none tab dg ⟨by simp, by simp⟩ hok
  have hinv' : TabInv tab' :=
    lire_loop_inv readS readP fmt files' ([], []) none tab' dg' ⟨by simp, by simp⟩ hok'
  refine ⟨tab, dg, tab', dg', hok, hok', hkeq, hlkeq, ?_⟩
  intro s
  by_cases hs : s ∈ tab.map Prod.fst
  · have hs' : s ∈ tab'.map Prod.fst := (hkeq s).mp hs
    obtain ⟨led, hled⟩ := Option.isSome_iff_exists.mp
      ((dget_isSome_iff_mem_keys tab s).mpr hs)
    obtain ⟨led', hled'⟩ := Option.isSome_iff_exists.mp
      ((dget_isSome_iff_mem_keys tab' s).mpr hs')
    rw [aggreger_donnees_get tab hinv.1 (dget_mem hled),
      aggreger_donnees_get tab' hinv'.1 (dget_mem hled')]
    apply aggregerStation_ext
    · exact hinv.2 _ (dget_mem hled)
    · exact hinv'.2 _ (dget_mem hled')
    · intro v
      have h1 : lookup2 tab s v = dget led v := by unfold lookup2; rw [hled]
      have h2 : lookup2 tab' s v = dget led' v := by unfold lookup2; rw [hled']
      rw [← h1, ← h2, hlkeq s v]
  · have hs' : s ∉ tab'.map Prod.fst := fun h => hs ((hkeq s).mpr h)
    rw [aggreger_donnees_get_notin tab hs, aggreger_donnees_get_notin tab' hs']

/-- Reader with a vintage collision: files f1 and f2 yield extracts for the
same station S sharing vintage 10 but carrying different values. -/
def readOrd : String → FileData := fun f =>
  if f = "f1" then [("S", [(10, dfDup1)])] else [("S", [(10, dfDup2)])]

/-- C5 counterexample: with a vintage collision, the file order decides
which extract is retained, so two permutations of the same file set yield
different ledgers and different reconciled series — not merely different
diagnostics. -/
theorem order_independence_c5_counterexample :
    lire_fichiers_excel readOrd (fun _ => []) ["f1", "f2"] "SALLELES"
      = .ok ([("S", [(10, dfDup1)])], [("f2", 10)]) ∧
    lire_fichiers_excel readOrd (fun _ => []) ["f2", "f1"] "SALLELES"
      = .ok ([("S", [(10, dfDup2)])], [("f1", 10)]) ∧
    dfDup1 ≠ dfDup2 ∧
    dget (aggreger_donnees [("S", [(10, dfDup1)])]) "S"
      ≠ dget (aggreger_donnees [("S", [(10, dfDup2)])]) "S" :=
  ⟨rfl, rfl, by decide, by decide⟩

theorem countP_pair_le_one {α : Type} (p : α → Bool) (a b : α)
    (h : ¬(p a = true ∧ p b = true)) : List.countP p [a, b] ≤ 1 := by
  simp only [List.countP_cons, List.countP_nil]
  cases ha : p a <;> cases hb : p b <;> simp_all

/-- Collision-free reader: two files produce extracts of distinct stations. -/
def readTwo : String → FileData := fun f =>
  if f = "f1" then [("A", [(10, dfDup1)])] else [("B", [(20, dfDup3)])]

theorem order_independence_c5_witness :
    ∃ tab dg tab' dg',
      lire_fichiers_excel readTwo (fun _ => []) ["f1", "f3"] "SALLELES" = .ok (tab, dg) ∧
      lire_fichiers_excel readTwo (fun _ => []) ["f3", "f1"] "SALLELES" = .ok (tab', dg') ∧
      (∀ s, s ∈ tab.map Prod.fst ↔ s ∈ tab'.map Prod.fst) ∧
      (∀ s v, lookup2 tab s v = lookup2 tab' s v) ∧
      (∀ s, dget (aggreger_donnees tab) s = dget (aggreger_donnees tab') s) :=
  order_independence_c5_amended readTwo (fun _ => []) ["f1", "f3"] ["f3", "f1"]
    "SALLELES" (Or.inl rfl) (by decide)
    (fun s v => by
      have he : entriesOfFiles (activeRead readTwo (fun _ => []) "SALLELES") ["f1", "f3"]
          = [("A", 10, dfDup1), ("B", 20, dfDup3)] := rfl
      rw [he]
      refine countP_pair_le_one _ _ _ ?_
      rintro ⟨h1, h2⟩
      have hA : "A" = s := (of_decide_eq_true h1).1
      have hB : "B" = s := (of_decide_eq_true h2).1
      rw [← hA] at hB
      exact absurd hB (by decide))

/-- A reference into the object heap (a Python object identity). -/
abbrev Ref := Nat

/-- A station's ledger holding references to DataFrame objects. -/
abbrev HeapLedger := List (Nat × Ref)

/-- tab_data with DataFrames as heap references. -/
abbrev HeapTab := List (String × HeapLedger)

/-- Read one station's ledger through the heap. -/
def derefLedger (heap : List DF) (l : HeapLedger) : Ledger :=
  l.map (fun q => (q.1, heap.getD q.2 dfDefault))

/-- Read tab_data through the heap. -/
def derefTab (heap : List DF) (tab : HeapTab) : TabData :=
  tab.map (fun p => (p.1, derefLedger heap p.2))

/-- Read the resultat dict through the heap. -/
def derefRes (heap : List DF) (res : List (String × Ref)) : List (String × DF) :=
  res.map (fun p => (p.1, heap.getD p.2 dfDefault))

/-- The date loop of aggreger_donnees on the object heap, mirroring the
Python object semantics: line 242 stores the extract's reference itself in
resultat (an alias, no copy); line 238 reassigns resultat[nom_station] to
the fresh object allocated by reindex; line 239 then mutates that fresh
object in place via update. -/
def aggregerH_inner (nom_station : String) (ledger : HeapLedger) :
    List Nat → List (String × Ref) × List DF → List (String × Ref) × List DF
  | [], st => st
  | derniere_date :: rest, (res, heap) =>
    match dget ledger derniere_date with
    | none => aggregerH_inner nom_station ledger rest (res, heap)
    | some dataRef =>
      match dget res nom_station with
      | some accRef =>
        let accDF := heap.getD accRef dfDefault
        let dataDF := heap.getD dataRef dfDefault
        let reDF := accDF.reindex (sortedUnion accDF.index dataDF.index)
        let newRef := heap.length
        let heap2 := (heap ++ [reDF]).set newRef (reDF.update dataDF)
        aggregerH_inner nom_station ledger rest (dset res nom_station newRef, heap2)
      | none =>
        aggregerH_inner nom_station ledger rest (dset res nom_station dataRef, heap)

/-- The station loop of aggreger_donnees on the object heap. -/
def aggregerH_outer : HeapTab → List (String × Ref) × List DF → List (String × Ref) × List DF
  | [], st => st
  | (nom_station, ledger) :: rest, st =>
    aggregerH_outer rest (aggregerH_inner nom_station ledger (sortedDates ledger) st)

/-- aggreger_donnees on the object heap: start from an empty resultat dict
and the given heap holding the input extracts. -/
def aggreger_donnees_heap (tab : HeapTab) (heap : List DF) :
    List (String × Ref) × List DF :=
  aggregerH_outer tab ([], heap)

theorem set_append_length {α : Type} (l : List α) (a b : α) :
    (l ++ [a]).set l.length b = l ++ [b] := by
  induction l with
  | nil => rfl
  | cons x t ih => simp [List.set, ih]

theorem getD_append_length {α : Type} (l : List α) (a d : α) :
    (l ++ [a]).getD l.length d = a := by
  rw [List.getD_append_right _ _ _ _ (le_refl _)]
  simp

theorem derefRes_extension (heap Δ : List DF) (res : List (String × Ref))
    (h : ∀ p ∈ res, (p.2 : Ref) < heap.length) :
    derefRes (heap ++ Δ) res = derefRes heap res := by
  unfold derefRes
  apply List.map_congr_left
  intro p hp
  rw [List.getD_append _ _ _ _ (h p hp)]

theorem derefLedger_extension (heap Δ : List DF) (l : HeapLedger)
    (h : ∀ q ∈ l, (q.2 : Ref) < heap.length) :
    derefLedger (heap ++ Δ) l = derefLedger heap l := by
  unfold derefLedger
  apply List.map_congr_left
  intro q hq
  rw [List.getD_append _ _ _ _ (h q hq)]

theorem derefTab_extension (heap Δ : List DF) (tab : HeapTab)
    (h : ∀ p ∈ tab, ∀ q ∈ (p.2 : HeapLedger), (q.2 : Ref) < heap.length) :
    derefTab (heap ++ Δ) tab = derefTab heap tab := by
  unfold derefTab
  apply List.map_congr_left
  intro p hp
  rw [derefLedger_extension heap Δ p.2 (h p hp)]

theorem sortedDates_derefLedger (heap : List DF) (l : HeapLedger) :
    sortedDates (derefLedger heap l) = sortedDates l := by
  unfold sortedDates derefLedger
  rw [List.map_map]
  rfl

theorem aggregerH_inner_sim (nom_station : String) (ledger : HeapLedger) (heap0 : List DF)
    (hled : ∀ q ∈ ledger, (q.2 : Ref) < heap0.length) :
    ∀ (dates : List Nat) (res : List (String × Ref)) (heap : List DF),
      (∃ Δ, heap = heap0 ++ Δ) →
      (∀ p ∈ res, (p.2 : Ref) < heap.length) →
      ∃ res' heap', aggregerH_inner nom_station ledger dates (res, heap) = (res', heap') ∧
        (∃ Δ', heap' = heap ++ Δ') ∧ (∀ p ∈ res', (p.2 : Ref) < heap'.length) ∧
        derefRes heap' res'
          = aggreger_inner nom_station (derefLedger heap0 ledger) dates (derefRes heap res) := by
  intro dates
  induction dates with
  | nil =>
    intro res heap hext hres
    exact ⟨res, heap, rfl, ⟨[], by simp⟩, hres, rfl⟩
  | cons d rest ih =>
    intro res heap hext hres
    obtain ⟨Δ, hΔ⟩ := hext
    have hdget : dget (derefLedger heap0 ledger) d
        = (dget ledger d).map (fun r => heap0.getD r dfDefault) :=
      dget_map_snd ledger (fun r => heap0.getD r dfDefault) d
    cases hd : dget ledger d with
    | none =>
      have hdp : dget (derefLedger heap0 ledger) d = none := by rw [hdget, hd]; rfl
      simp only [aggregerH_inner, hd, aggreger_inner, hdp]
      exact ih res heap ⟨Δ, hΔ⟩ hres
    | some dataRef =>
      have hdata_lt : dataRef < heap0.length := hled _ (dget_mem hd)
      have hdata_lt' : dataRef < heap.length := by
        rw [hΔ, List.length_append]
        exact Nat.lt_of_lt_of_le hdata_lt (Nat.le_add_right _ _)
      have hdp : dget (derefLedger heap0 ledger) d
          = some (heap0.getD dataRef dfDefault) := by rw [hdget, hd]; rfl
      have hdata_eq : heap.getD dataRef dfDefault = heap0.getD dataRef dfDefault := by
        rw [hΔ, List.getD_append _ _ _ _ hdata_lt]
      have hrget : dget (derefRes heap res) nom_station
          = (dget res nom_station).map (fun r => heap.getD r dfDefault) :=
        dget_map_snd res (fun r => heap.getD r dfDefault) nom_station
      cases hr : dget res nom_station with
      | none =>
        have hrp : dget (derefRes heap res) nom_station = none := by rw [hrget, hr]; rfl
        simp only [aggregerH_inner, hd, hr, aggreger_inner, hdp, hrp]
        have hres1 : ∀ p ∈ dset res nom_station dataRef, (p.2 : Ref) < heap.length := by
          intro p hp
          rcases mem_dset hp with h | h
          · exact hres p h
          · subst h; exact hdata_lt'
        obtain ⟨res', heap', heq, hext', hres', hderef⟩ :=
          ih (dset res nom_station dataRef) heap ⟨Δ, hΔ⟩ hres1
        refine ⟨res', heap', heq, hext', hres', ?_⟩
        rw [hderef]
        congr 1
        rw [show derefRes heap (dset res nom_station dataRef)
            = dset (derefRes heap res) nom_station (heap.getD dataRef dfDefault) from
          dset_map_snd res (fun r => heap.getD r dfDefault) nom_station dataRef, hdata_eq]
      | some accRef =>
        have hacc_lt : accRef < heap.length := hres _ (dget_mem hr)
        have hrp : dget (derefRes heap res) nom_station
            = some (heap.getD accRef dfDefault) := by rw [hrget, hr]; rfl
        have hheap2 : ((heap ++ [(heap.getD accRef dfDefault).reindex
              (sortedUnion (heap.getD accRef dfDefault).index
                (heap.getD dataRef dfDefault).index)]).set heap.length
              (((heap.getD accRef dfDefault).reindex
                (sortedUnion (heap.getD accRef dfDefault).index
                  (heap.getD dataRef dfDefault).index)).update (heap.getD dataRef dfDefault)))
            = heap ++ [mergeStep (heap.getD accRef dfDefault) (heap.getD dataRef dfDefault)] :=
          set_append_length heap _ _
        simp only [aggregerH_inner, hd, hr, aggreger_inner, hdp, hrp]
        rw [hheap2]
        have hext2 : ∃ Δ', heap
            ++ [mergeStep (heap.getD accRef dfDefault) (heap.getD dataRef dfDefault)]
            = heap0 ++ Δ' :=
          ⟨Δ ++ [_], by rw [hΔ, List.append_assoc]⟩
        have hres2 : ∀ p ∈ dset res nom_station heap.length, (p.2 : Ref) < (heap
            ++ [mergeStep (heap.getD accRef dfDefault) (heap.getD dataRef dfDefault)]).length := by
          intro p hp
          rw [List.length_append, List.length_singleton]
          rcases mem_dset hp with h | h
          · exact Nat.lt_of_lt_of_le (hres p h) (Nat.le_add_right _ _)
          · subst h; simp
        obtain ⟨res', heap', heq, ⟨Δ'', hΔ''⟩, hres', hderef⟩ :=
          ih (dset res nom_station heap.length)
            (heap ++ [mergeStep (heap.getD accRef dfDefault) (heap.getD dataRef dfDefault)])
            hext2 hres2
        refine ⟨res', heap', heq,
          ⟨[mergeStep (heap.getD accRef dfDefault) (heap.getD dataRef dfDefault)] ++ Δ'',
            by rw [hΔ'', List.append_assoc]⟩, hres', ?_⟩
        rw [hderef]
        congr 1
        rw [show derefRes (heap
              ++ [mergeStep (heap.getD accRef dfDefault) (heap.getD dataRef dfDefault)])
              (dset res nom_station heap.length)
            = dset (derefRes (heap
                ++ [mergeStep (heap.getD accRef dfDefault) (heap.getD dataRef dfDefault)]) res)
                nom_station
                ((heap ++ [mergeStep (heap.getD accRef dfDefault)
                  (heap.getD dataRef dfDefault)]).getD heap.length dfDefault) from
          dset_map_snd res (fun r => (heap ++ [mergeStep (heap.getD accRef dfDefault)
            (heap.getD dataRef dfDefault)]).getD r dfDefault) nom_station heap.length,
          getD_append_length, derefRes_extension heap _ res hres, hdata_eq]

theorem aggregerH_outer_sim (heap0 : List DF) :
    ∀ (tab : HeapTab) (res : List (String × Ref)) (heap : List DF),
      (∀ p ∈ tab, ∀ q ∈ (p.2 : HeapLedger), (q.2 : Ref) < heap0.length) →
      (∃ Δ, heap = heap0 ++ Δ) →
      (∀ p ∈ res, (p.2 : Ref) < heap.length) →
      ∃ res' heap', aggregerH_outer tab (res, heap) = (res', heap') ∧
        (∃ Δ', heap' = heap ++ Δ') ∧ (∀ p ∈ res', (p.2 : Ref) < heap'.length) ∧
        derefRes heap' res' = aggreger_outer (derefTab heap0 tab) (derefRes heap res) := by
  intro tab
  induction tab with
  | nil =>
    intro res heap _ _ hres
    exact ⟨res, heap, rfl, ⟨[], by simp⟩, hres, rfl⟩
  | cons p rest ih =>
    obtain ⟨s, ledger⟩ := p
    intro res heap htab hext hres
    have hled : ∀ q ∈ ledger, (q.2 : Ref) < heap0.length := htab (s, ledger) (by simp)
    obtain ⟨res1, heap1, heq1, ⟨Δ1, hΔ1⟩, hres1, hd1⟩ :=
      aggregerH_inner_sim s ledger heap0 hled (sortedDates ledger) res heap hext hres
    obtain ⟨Δ0, hΔ0⟩ := hext
    obtain ⟨res', heap', heq2, ⟨Δ2, hΔ2⟩, hres2, hd2⟩ :=
      ih res1 heap1 (fun p hp => htab p (List.mem_cons_of_mem _ hp))
        ⟨Δ0 ++ Δ1, by rw [hΔ1, hΔ0, List.append_assoc]⟩ hres1
    refine ⟨res', heap', ?_, ⟨Δ1 ++ Δ2, by rw [hΔ2, hΔ1, List.append_assoc]⟩, hres2, ?_⟩
    · show aggregerH_outer rest (aggregerH_inner s ledger (sortedDates ledger) (res, heap))
        = (res', heap')
      rw [heq1]
      exact heq2
    · rw [hd2, hd1]
      show _ = aggreger_outer (derefTab heap0 ((s, ledger) :: rest)) (derefRes heap res)
      simp only [derefTab, List.map_cons, aggreger_outer]
      rw [sortedDates_derefLedger]

/-- C7 — Idempotence and no input mutation, shown on the object-heap model
of aggreger_donnees (line 238's reindex allocates a fresh frame, line 239's
update mutates that fresh frame in place, line 242 aliases the input
extract): a run leaves every pre-existing heap cell — in particular every
input extract — unchanged, the produced series refine the pure
aggreger_donnees of the dereferenced input, and a second run on the same
unchanged input yields series identical to the first run's. -/
theorem idempotence_c7 (tab : HeapTab) (heap : List DF)
    (hrefs : ∀ p ∈ tab, ∀ q ∈ (p.2 : HeapLedger), (q.2 : Ref) < heap.length) :
    ∃ res1 heap1 res2 heap2,
      aggreger_donnees_heap tab heap = (res1, heap1) ∧
      aggreger_donnees_heap tab heap1 = (res2, heap2) ∧
      (∀ r, r < heap.length → heap1.getD r dfDefault = heap.getD r dfDefault) ∧
      derefRes heap1 res1 = aggreger_donnees (derefTab heap tab) ∧
      derefRes heap2 res2 = derefRes heap1 res1 := by
  obtain ⟨res1, heap1, he1, ⟨Δ1, hΔ1⟩, hlt1, hd1⟩ :=
    aggregerH_outer_sim heap tab [] heap hrefs ⟨[], by simp⟩ (by simp)
  have hrefs1 : ∀ p ∈ tab, ∀ q ∈ (p.2 : HeapLedger), (q.2 : Ref) < heap1.length := by
    intro p hp q hq
    rw [hΔ1, List.length_append]
    exact Nat.lt_of_lt_of_le (hrefs p hp q hq) (Nat.le_add_right _ _)
  obtain ⟨res2, heap2, he2, ⟨Δ2, hΔ2⟩, hlt2, hd2⟩ :=
    aggregerH_outer_sim heap1 tab [] heap1 hrefs1 ⟨[], by simp⟩ (by simp)
  have hunch : ∀ r, r < heap.length → heap1.getD r dfDefault = heap.getD r dfDefault := by
    intro r hr
    rw [hΔ1, List.getD_append _ _ _ _ hr]
  have htab1 : derefTab heap1 tab = derefTab heap tab := by
    rw [hΔ1]
    exact derefTab_extension heap Δ1 tab hrefs
  refine ⟨res1, heap1, res2, heap2, he1, he2, hunch, ?_, ?_⟩
  · rw [hd1]; rfl
  · rw [hd2, htab1, hd1]
    rfl

theorem idempotence_c7_witness :
    ∃ res1 heap1 res2 heap2,
      aggreger_donnees_heap [("S", [(2, 0), (4, 1)])] [dfA2, dfB2] = (res1, heap1) ∧
      aggreger_donnees_heap [("S", [(2, 0), (4, 1)])] heap1 = (res2, heap2) ∧
      (∀ r, r < ([dfA2, dfB2] : List DF).length →
        heap1.getD r dfDefault = ([dfA2, dfB2] : List DF).getD r dfDefault) ∧
      derefRes heap1 res1
        = aggreger_donnees (derefTab [dfA2, dfB2] [("S", [(2, 0), (4, 1)])]) ∧
      derefRes heap2 res2 = derefRes heap1 res1 :=
  idempotence_c7 [("S", [(2, 0), (4, 1)])] [dfA2, dfB2] (by decide)
